import Mathlib

/-
Verification development for the note-to-email application: a shallow
embedding of the template engine (variable extraction, rendering,
HTML sanitization), the template version store, the provider adapters
and the idempotent dispatch/retry pipeline, together with theorems
settling the specification claims about them.

Sources embedded:
  backend/src/services/templateEngine.ts   (TemplateEngine)
  backend/src/services/emailService.ts     (EmailService, Gmail adapter)
  backend/src/services/nylasEmailService.ts (NylasEmailService)
  backend/src/routes/templates.ts          (template update route)
  backend/src/database/schema.sql          (create_template_version trigger)
  the email send/retry router               (POST /send, POST /sent/:id/retry)

External libraries (Handlebars, DOMPurify, marked) are not part of the
repository; where their behaviour decides a claim they are modelled from
the specification and from their documented default behaviour, with the
repository-side configuration (allow-lists, regular expressions) carried
over verbatim.
-/

namespace NoteToEmail

/-! ## Basic character and string helpers -/

/-- Whitespace as matched by the JavaScript regex class backslash-s
(the cases relevant here: space, tab, newline, carriage return,
vertical tab, form feed). -/
def jsWs (c : Char) : Bool :=
  c = ' ' || c = '\t' || c = '\n' || c = '\r' || c = '\x0b' || c = '\x0c'

/-- Trim whitespace from both ends of a character list, as
String.prototype.trim does. -/
def trimChars (cs : List Char) : List Char :=
  ((cs.dropWhile jsWs).reverse.dropWhile jsWs).reverse

/-- Substring test: true when sub occurs contiguously inside s. -/
def containsSub (s sub : String) : Bool :=
  (List.range (s.toList.length + 1)).any (fun i => sub.toList.isPrefixOf (s.toList.drop i))

/-! ## Mustache token scanner

The template engine finds variable tokens with the global regular
expression over double-brace tokens (templateEngine.ts lines 39 and 149):
it matches two opening braces, one or more characters none of which is a
closing brace, then two closing braces.  The scanner below returns the
inner contents of each non-overlapping match, scanning left to right and
advancing a single character whenever no match starts at the current
position, exactly as the regex engine does. -/

/-- Fuel-indexed scanner for the global mustache-token regex. -/
def scanMustache : Nat → List Char → List (List Char)
  | 0, _ => []
  | _ + 1, [] => []
  | fuel + 1, '\x7b' :: '\x7b' :: rest =>
      let inner := rest.takeWhile (fun c => c ≠ '\x7d')
      let after := rest.drop inner.length
      if inner.isEmpty then
        scanMustache fuel ('\x7b' :: rest)
      else
        match after with
        | '\x7d' :: '\x7d' :: tail => inner :: scanMustache fuel tail
        | _ => scanMustache fuel ('\x7b' :: rest)
  | fuel + 1, _ :: rest => scanMustache fuel rest

/-- All mustache-token contents of a string. -/
def mustacheMatches (s : String) : List (List Char) :=
  scanMustache (s.toList.length + 1) s.toList

/-! ## TemplateEngine.extractTemplateVariables (templateEngine.ts 144-168) -/

/-- Replace a single leading occurrence of pat followed by at least one
whitespace character, removing pat and the whole greedy whitespace run —
the semantics of the anchored replace calls in the source. -/
def stripLead (pat : String) (cs : List Char) : List Char :=
  if pat.toList.isPrefixOf cs then
    let rest := cs.drop pat.toList.length
    match rest with
    | c :: _ => if jsWs c then rest.dropWhile jsWs else cs
    | [] => cs
  else cs

/-- Process one regex match the way the source chains its replace calls:
remove every brace character, strip a leading "#each" helper, then a
leading "if", then a leading "unless", trim, and keep only the root name
before the first dot. -/
def rootName (inner : List Char) : String :=
  let noBraces := inner.filter (fun c => c ≠ '\x7b' && c ≠ '\x7d')
  let stripped := stripLead "unless" (stripLead "if" (stripLead "#each" noBraces))
  let trimmed := trimChars stripped
  String.mk (trimmed.takeWhile (fun c => c ≠ '.'))

/-- Prefix test on strings, computed on the underlying character lists
(the behaviour of String.prototype.startsWith). -/
def strStarts (s pre : String) : Bool :=
  pre.toList.isPrefixOf s.toList

/-- The guard under which a processed variable name is added to the set:
truthy (nonempty), not a closing-tag marker, and not the implicit
context variable. -/
def keepVar (v : String) : Bool :=
  !(v == "") && !(strStarts v "/") && !(v == "this")

/-- Add a variable to the accumulated insertion-ordered set. -/
def addVar (acc : List String) (v : String) : List String :=
  if keepVar v && !(acc.contains v) then acc ++ [v] else acc

/-- TemplateEngine.extractTemplateVariables: scan the concatenation of
subject, a space and body for mustache tokens, process each to a root
name and collect the kept names in first-seen order without duplicates. -/
def extractTemplateVariables (subject body : String) : List String :=
  let content := subject ++ " " ++ body
  (mustacheMatches content).foldl (fun acc m => addVar acc (rootName m)) []

/-! ## TemplateVersionStore (routes/templates.ts 90-129 and the
create_template_version trigger of schema.sql 96-114) -/

/-- The live row of email_templates that the update route and the
versioning trigger read and write. -/
structure TemplateRow where
  name : String
  subject : String
  body : String
  vars : List String
  version : Nat
deriving Repr, DecidableEq

/-- One immutable row of email_template_versions. -/
structure TemplateSnapshot where
  subject : String
  body : String
  vars : List String
  version : Nat
deriving Repr, DecidableEq

/-- The template update operation: the PUT route derives the variables
from the new subject and body and issues an UPDATE of name, subject,
body and variables; the BEFORE UPDATE trigger create_template_version
compares OLD and NEW on subject, body and variables, and when any
differs it inserts a snapshot of the OLD subject/body/variables/version
and sets the NEW version to OLD.version + 1.  Returns the resulting live
row and the snapshot written, if any. -/
def templateUpdate (row : TemplateRow) (newName newSubject newBody : String) :
    TemplateRow × Option TemplateSnapshot :=
  let newVariables := extractTemplateVariables newSubject newBody
  if row.subject ≠ newSubject ∨ row.body ≠ newBody ∨ row.vars ≠ newVariables then
    ({ name := newName, subject := newSubject, body := newBody,
       vars := newVariables, version := row.version + 1 },
     some { subject := row.subject, body := row.body,
            vars := row.vars, version := row.version })
  else
    ({ row with name := newName, subject := newSubject, body := newBody,
                vars := newVariables }, none)

/-! ## Facts about variable extraction -/

theorem addVar_fold_invariant (ms : List (List Char)) :
    ∀ acc : List String, acc.Nodup → (∀ v ∈ acc, keepVar v = true) →
      (ms.foldl (fun acc m => addVar acc (rootName m)) acc).Nodup ∧
      ∀ v ∈ ms.foldl (fun acc m => addVar acc (rootName m)) acc, keepVar v = true := by
  induction ms with
  | nil => intro acc h1 h2; exact ⟨h1, h2⟩
  | cons m ms ih =>
      intro acc h1 h2
      simp only [List.foldl_cons]
      apply ih
      · unfold addVar
        split
        · rename_i hcond
          simp only [Bool.and_eq_true, Bool.not_eq_true'] at hcond
          have hni : rootName m ∉ acc := by simpa using hcond.2
          simp [List.nodup_append, h1, hni]
        · exact h1
      · intro v hv
        unfold addVar at hv
        split at hv
        · rename_i hcond
          simp only [Bool.and_eq_true] at hcond
          rcases List.mem_append.mp hv with h | h
          · exact h2 v h
          · simp at h; subst h; exact hcond.1
        · exact h2 v hv

/-- C8 counterexample: the source only strips the "#each" block helper
and the prefix-less forms "if "/"unless "; the Handlebars block helper
written as a hash-if token is not stripped, so extraction yields the
literal token "#if foo" instead of the bound name "foo". -/
theorem extractVariables_if_helper_counterexample :
    extractTemplateVariables "" "\x7b\x7b#if foo\x7d\x7dx\x7b\x7b/if\x7d\x7d" = ["#if foo"] ∧
    (extractTemplateVariables "" "\x7b\x7b#if foo\x7d\x7dx\x7b\x7b/if\x7d\x7d" == ["foo"]) = false := by
  exact ⟨rfl, by decide⟩

/-- C8 (amended): extraction returns the deduplicated, order-preserving
list of root variable names: a dotted path yields its root, the "#each"
helper (and the prefix-less "if "/"unless " forms) are stripped before
extracting the bound name, while "#if"/"#unless" tokens are kept
literally; the implicit context variable "this", closing-tag markers and
empty names are excluded, and extraction is total. -/
theorem extractTemplateVariables_spec :
    (extractTemplateVariables
        "\x7b\x7bnote_title\x7d\x7d \x7b\x7b#each items\x7d\x7d\x7b\x7bthis\x7d\x7d\x7b\x7b/each\x7d\x7d" ""
      = ["note_title", "items"])
    ∧ (extractTemplateVariables "" "\x7b\x7ba.b\x7d\x7d" = ["a"])
    ∧ (extractTemplateVariables "" "\x7b\x7bitems\x7d\x7d and \x7b\x7bitems\x7d\x7d" = ["items"])
    ∧ (extractTemplateVariables "" "\x7b\x7bif cond\x7d\x7d" = ["cond"])
    ∧ (extractTemplateVariables "" "\x7b\x7bunless done\x7d\x7d" = ["done"])
    ∧ ∀ s b, (extractTemplateVariables s b).Nodup ∧
        ∀ v ∈ extractTemplateVariables s b,
          v ≠ "" ∧ strStarts v "/" = false ∧ v ≠ "this" := by
  refine ⟨rfl, rfl, rfl, rfl, rfl, ?_⟩
  intro s b
  have h := addVar_fold_invariant (mustacheMatches (s ++ " " ++ b)) [] (by simp) (by simp)
  refine ⟨h.1, ?_⟩
  intro v hv
  have hk := h.2 v hv
  simp only [keepVar, Bool.and_eq_true, Bool.not_eq_true'] at hk
  refine ⟨?_, hk.1.2, ?_⟩
  · intro he; subst he; simpa using hk.1.1
  · intro he; subst he; simpa using hk.2

/-- Witness for the amended C8 theorem at a concrete template. -/
theorem extractTemplateVariables_spec_witness :
    (extractTemplateVariables "" "\x7b\x7bitems\x7d\x7d").Nodup ∧
    ("items" ≠ "" ∧ strStarts "items" "/" = false ∧ "items" ≠ "this") := by
  have h := extractTemplateVariables_spec.2.2.2.2.2 "" "\x7b\x7bitems\x7d\x7d"
  exact ⟨h.1, h.2 "items" (by decide)⟩

/-- C3: under the invariant that the live row carries the variables
derived from its own subject and body (which every create and update
through the routes establishes), an update writes a snapshot of the old
subject/body/variables/version and bumps the version by exactly one if
and only if the new subject or body differs; an update with identical
content writes no snapshot and leaves the version unchanged; and two
successive body changes advance the version from v to v+1 to v+2. -/
theorem templateUpdate_versioning (row : TemplateRow) (nm s b nm2 b2 : String)
    (hval : row.vars = extractTemplateVariables row.subject row.body) :
    (¬ (s = row.subject ∧ b = row.body) →
        (templateUpdate row nm s b).2 =
          some ⟨row.subject, row.body, row.vars, row.version⟩ ∧
        (templateUpdate row nm s b).1.version = row.version + 1 ∧
        (templateUpdate row nm s b).1.subject = s ∧
        (templateUpdate row nm s b).1.body = b ∧
        (templateUpdate row nm s b).1.vars = extractTemplateVariables s b)
    ∧ (s = row.subject → b = row.body →
        (templateUpdate row nm s b).2 = none ∧
        (templateUpdate row nm s b).1.version = row.version)
    ∧ (b ≠ row.body → b2 ≠ b →
        (templateUpdate (templateUpdate row nm s b).1 nm2 s b2).1.version = row.version + 2 ∧
        (templateUpdate (templateUpdate row nm s b).1 nm2 s b2).2 =
          some ⟨s, b, extractTemplateVariables s b, row.version + 1⟩) := by
  refine ⟨?_, ?_, ?_⟩
  · intro h
    have hcond : row.subject ≠ s ∨ row.body ≠ b ∨
        row.vars ≠ extractTemplateVariables s b := by
      rcases not_and_or.mp h with h1 | h1
      · exact Or.inl (fun he => h1 he.symm)
      · exact Or.inr (Or.inl (fun he => h1 he.symm))
    simp only [templateUpdate]
    rw [if_pos hcond]
    exact ⟨rfl, rfl, rfl, rfl, rfl⟩
  · intro hs hb
    have hv : extractTemplateVariables s b = row.vars := by
      rw [hs, hb]; exact hval.symm
    have hcond : ¬ (row.subject ≠ s ∨ row.body ≠ b ∨
        row.vars ≠ extractTemplateVariables s b) := by
      push_neg
      exact ⟨hs.symm, hb.symm, hv.symm⟩
    simp only [templateUpdate]
    rw [if_neg hcond]
    exact ⟨rfl, rfl⟩
  · intro hb hb2
    have hcond1 : row.subject ≠ s ∨ row.body ≠ b ∨
        row.vars ≠ extractTemplateVariables s b :=
      Or.inr (Or.inl (fun he => hb he.symm))
    have step1 : templateUpdate row nm s b =
        ({ name := nm, subject := s, body := b,
           vars := extractTemplateVariables s b, version := row.version + 1 },
         some ⟨row.subject, row.body, row.vars, row.version⟩) := by
      simp only [templateUpdate]
      rw [if_pos hcond1]
    rw [step1]
    have hcond2 : (s ≠ s ∨ b ≠ b2 ∨
        extractTemplateVariables s b ≠ extractTemplateVariables s b2) :=
      Or.inr (Or.inl (fun he => hb2 he.symm))
    simp only [templateUpdate]
    rw [if_pos hcond2]
    exact ⟨rfl, rfl⟩

/-- Witness for the template versioning theorem: a concrete row at
version 1 whose body is changed twice reaches versions 2 and 3, with
the first snapshot preserving the original content. -/
theorem templateUpdate_versioning_witness :
    (templateUpdate
        { name := "t", subject := "s", body := "x",
          vars := extractTemplateVariables "s" "x", version := 1 } "t" "s" "y").1.version = 1 + 1 ∧
    (templateUpdate (templateUpdate
        { name := "t", subject := "s", body := "x",
          vars := extractTemplateVariables "s" "x", version := 1 } "t" "s" "y").1
        "t" "s" "z").1.version = 1 + 2 := by
  have h := templateUpdate_versioning
    { name := "t", subject := "s", body := "x",
      vars := extractTemplateVariables "s" "x", version := 1 } "t" "s" "y" "t" "z" rfl
  exact ⟨((h.1 (by decide)).2.1), (h.2.2 (by decide) (by decide)).1⟩

/-! ## HTML sanitizer (TemplateEngine.sanitizeHtml, templateEngine.ts 58-68)

The sanitizer calls DOMPurify with the explicit configuration in the
source: an allow-list of tags, the attribute allow-list
href/src/alt/title/style, and the URI regular expression.  DOMPurify is
an external library; its engine is modelled here, from the specification
section on the sanitization allow-list and from the documented default
DOMPurify semantics, as a recursive walk over a parsed DOM forest: an
element whose (lowercased) tag is allow-listed is kept with filtered
attributes, an element in the forbidden-contents set is dropped whole,
and any other element is dropped while its children are kept.  The
configuration lists and the URI regular expression are transcribed
verbatim from the source. -/

/-- A parsed HTML node: text, or an element with attributes and
children.  Tag and attribute names are lowercase, as produced by the
DOM parser. -/
inductive HNode where
  | text (s : String) : HNode
  | elem (tag : String) (attrs : List (String × String)) (children : List HNode) : HNode

/-- ALLOWED_TAGS from the source configuration. -/
def allowedTags : List String :=
  ["p", "br", "strong", "em", "u", "h1", "h2", "h3", "h4", "h5", "h6",
   "ul", "ol", "li", "blockquote", "a", "img", "table", "thead", "tbody",
   "tr", "td", "th", "div", "span", "pre", "code"]

/-- ALLOWED_ATTR from the source configuration. -/
def allowedAttrs : List String := ["href", "src", "alt", "title", "style"]

/-- Modelled from the spec: DOMPurify removes certain non-allowed
elements together with their contents (its default forbidden-contents
set, covering script/style and other raw-text or foreign elements);
every other non-allowed element is removed while its children are
kept. -/
def forbidContents : List String :=
  ["annotation-xml", "audio", "colgroup", "desc", "foreignobject", "head",
   "iframe", "math", "mi", "mn", "mo", "ms", "mtext", "noembed", "noframes",
   "noscript", "plaintext", "script", "style", "svg", "template", "thead",
   "title", "video", "xmp"]

/-- ASCII lowercase conversion of one character. -/
def lowerChar (c : Char) : Char :=
  if 65 ≤ c.toNat && c.toNat ≤ 90 then Char.ofNat (c.toNat + 32) else c

/-- ASCII lowercase conversion of a string. -/
def lowerStr (s : String) : String :=
  String.mk (s.toList.map lowerChar)

/-- ASCII letter test (the regex class a-z under the i flag). -/
def isAsciiAlpha (c : Char) : Bool :=
  (65 ≤ c.toNat && c.toNat ≤ 90) || (97 ≤ c.toNat && c.toNat ≤ 122)

/-- Character class of the third alternative of the URI regular
expression: letters, plus, dot and hyphen. -/
def uriNameChar (c : Char) : Bool :=
  isAsciiAlpha c || c = '+' || c = '.' || c = '-'

/-- The ALLOWED_URI_REGEXP of the source, decided literally: the value
matches when it starts with one of the scheme prefixes
ftp/ftps/http/https/mailto/tel/callto/cid/xmpp followed by a colon
(case-insensitively), or its first character is not an ASCII letter, or
its maximal leading run of letters/plus/dot/hyphen characters is not
immediately followed by a colon (backtracking over that run cannot
rescue a match, because every earlier cut point is followed by a
character of the same class). -/
def isAllowedUri (u : String) : Bool :=
  match u.toList with
  | [] => false
  | c :: _ =>
      (["ftp:", "ftps:", "http:", "https:", "mailto:", "tel:", "callto:",
        "cid:", "xmpp:"].any (fun p => strStarts (lowerStr u) p)) ||
      !(isAsciiAlpha c) ||
      (let run := u.toList.takeWhile uriNameChar
       match u.toList.drop run.length with
       | ':' :: _ => false
       | _ => true)

/-- Modelled from the spec: DOMPurify strips the attribute-whitespace
characters (controls and no-break space) from a value before testing it
against the URI regular expression. -/
def stripAttrWs (u : String) : String :=
  String.mk (u.toList.filter (fun c => !(c.toNat ≤ 32 || c.toNat = 160)))

/-- Whether one attribute survives the sanitizer: its name must be
allow-listed, and for the URI-bearing attributes href and src the
value must pass the URI regular expression. -/
def attrOk (a : String × String) : Bool :=
  a.1 ∈ allowedAttrs &&
  (if a.1 == "href" || a.1 == "src" then isAllowedUri (stripAttrWs a.2) else true)

/-- Filter the attribute list of a kept element. -/
def filterAttrs (attrs : List (String × String)) : List (String × String) :=
  attrs.filter attrOk

/-- The sanitizer walk over a DOM forest (the engine of
TemplateEngine.sanitizeHtml under the configuration above). -/
def sanitizeNodes : List HNode → List HNode
  | [] => []
  | .text s :: rest => .text s :: sanitizeNodes rest
  | .elem tag attrs children :: rest =>
      if tag ∈ allowedTags then
        .elem tag (filterAttrs attrs) (sanitizeNodes children) :: sanitizeNodes rest
      else if tag ∈ forbidContents then
        sanitizeNodes rest
      else
        sanitizeNodes children ++ sanitizeNodes rest

/-- The cleanliness invariant of sanitizer output: every element tag is
allow-listed, every attribute passes attrOk, recursively. -/
def nodesClean : List HNode → Bool
  | [] => true
  | .text _ :: rest => nodesClean rest
  | .elem tag attrs children :: rest =>
      decide (tag ∈ allowedTags) && attrs.all attrOk &&
      nodesClean children && nodesClean rest

theorem sanitizeNodes_append (l1 l2 : List HNode) :
    sanitizeNodes (l1 ++ l2) = sanitizeNodes l1 ++ sanitizeNodes l2 := by
  induction l1 using sanitizeNodes.induct <;>
    simp [sanitizeNodes, *]

theorem nodesClean_append (l1 l2 : List HNode) :
    nodesClean (l1 ++ l2) = (nodesClean l1 && nodesClean l2) := by
  induction l1 using nodesClean.induct <;>
    simp [nodesClean, *, Bool.and_assoc]

theorem filter_all_self (p : α → Bool) (l : List α) : (l.filter p).all p = true := by
  induction l with
  | nil => rfl
  | cons a l ih =>
      by_cases h : p a = true <;> simp [List.filter_cons, h, ih]

theorem nodesClean_sanitizeNodes (ns : List HNode) :
    nodesClean (sanitizeNodes ns) = true := by
  induction ns using sanitizeNodes.induct with
  | case1 => simp [sanitizeNodes, nodesClean]
  | case2 s rest ih => simpa [sanitizeNodes, nodesClean] using ih
  | case3 tag attrs children rest h ih1 ih2 =>
      simp [sanitizeNodes, h, nodesClean, ih1, ih2, filterAttrs, filter_all_self]
  | case4 tag attrs children rest h h2 ih =>
      simpa [sanitizeNodes, h, h2, nodesClean] using ih
  | case5 tag attrs children rest h h2 ih1 ih2 =>
      simp [sanitizeNodes, h, h2, nodesClean_append, ih1, ih2]

theorem filterAttrs_idem (attrs : List (String × String)) :
    filterAttrs (filterAttrs attrs) = filterAttrs attrs := by
  unfold filterAttrs
  induction attrs with
  | nil => rfl
  | cons a l ih =>
      by_cases h : attrOk a = true <;> simp [List.filter_cons, h, ih]

/-- The sanitizer walk is idempotent on DOM forests (the string-level
statement follows below, once serialization and parsing are related). -/
theorem sanitizeNodes_idem_forest :
    ∀ ns : List HNode, sanitizeNodes (sanitizeNodes ns) = sanitizeNodes ns := by
  intro ns
  induction ns using sanitizeNodes.induct <;>
    simp [sanitizeNodes, sanitizeNodes_append, filterAttrs_idem, *]

/-- The scheme restriction exactly as the specification words it:
http(s), mailto, tel, or a relative path (a value whose leading run of
scheme characters is not followed by a colon). -/
def specAllowedUri (u : String) : Bool :=
  (["http:", "https:", "mailto:", "tel:"].any (fun p => strStarts (lowerStr u) p)) ||
  (match u.toList.drop ((u.toList.takeWhile uriNameChar).length) with
   | ':' :: _ => false
   | _ => true)

/-- C5 counterexample: the URI regular expression in the source also
admits the schemes ftp, ftps, callto, cid and xmpp, so a sanitized
anchor may keep an href whose scheme is outside the set the claim
states (http(s), mailto, tel, relative): an ftp link survives
sanitization untouched. -/
theorem sanitize_scheme_counterexample :
    sanitizeNodes [.elem "a" [("href", "ftp://example.com/x")] [.text "x"]] =
      [.elem "a" [("href", "ftp://example.com/x")] [.text "x"]] ∧
    specAllowedUri "ftp://example.com/x" = false ∧
    isAllowedUri "ftp://example.com/x" = true := by
  refine ⟨?_, by decide, by decide⟩
  rw [sanitizeNodes, sanitizeNodes, sanitizeNodes]
  rw [if_pos (show "a" ∈ allowedTags by decide)]
  rw [show filterAttrs [("href", "ftp://example.com/x")] =
        [("href", "ftp://example.com/x")] from by decide]
  rw [show sanitizeNodes [] = [] from by rw [sanitizeNodes]]

/-- C5 (amended): sanitizer output contains only allow-listed tags,
only the attributes href/src/alt/title/style, and href/src values that
pass the allow-listed URI regular expression (schemes ftp, ftps,
http(s), mailto, tel, callto, cid, xmpp, or scheme-less values);
javascript URIs never pass, and the tags script/object/embed/form/input
and event-handler attributes are never allow-listed. -/
theorem sanitizeNodes_allowlist :
    (∀ ns : List HNode, nodesClean (sanitizeNodes ns) = true)
    ∧ isAllowedUri "javascript:alert(1)" = false
    ∧ (allowedTags.contains "script") = false
    ∧ (allowedTags.contains "object") = false
    ∧ (allowedTags.contains "embed") = false
    ∧ (allowedTags.contains "form") = false
    ∧ (allowedTags.contains "input") = false
    ∧ (allowedAttrs.contains "onerror") = false
    ∧ (allowedAttrs.contains "onload") = false
    ∧ (allowedAttrs.contains "onclick") = false := by
  exact ⟨nodesClean_sanitizeNodes, by decide, by decide, by decide, by decide,
    by decide, by decide, by decide, by decide, by decide⟩

/-! ## Handlebars interpolation (renderTemplate, templateEngine.ts 71-94)

Handlebars is an external library.  Modelled from the spec: escaped
double-brace interpolation HTML-encodes the value, the raw triple-brace
form inserts it verbatim, and a variable missing from the bindings
renders as the empty string (the Handlebars default for simple
interpolation); block helpers and partials are outside the fragment the
claims exercise and unmatched token openers degrade to literal text. -/

/-- One parsed Handlebars token. -/
inductive HbTok where
  | text (c : Char) : HbTok
  | var (name : String) : HbTok
  | raw (name : String) : HbTok

/-- Fuel-indexed Handlebars token parser. -/
def parseHb : Nat → List Char → List HbTok
  | 0, _ => []
  | _ + 1, [] => []
  | fuel + 1, '\x7b' :: '\x7b' :: '\x7b' :: rest =>
      let inner := rest.takeWhile (fun c => c ≠ '\x7d')
      let after := rest.drop inner.length
      match after with
      | '\x7d' :: '\x7d' :: '\x7d' :: tail =>
          .raw (String.mk (trimChars inner)) :: parseHb fuel tail
      | _ => .text '\x7b' :: parseHb fuel ('\x7b' :: '\x7b' :: rest)
  | fuel + 1, '\x7b' :: '\x7b' :: rest =>
      let inner := rest.takeWhile (fun c => c ≠ '\x7d')
      let after := rest.drop inner.length
      match after with
      | '\x7d' :: '\x7d' :: tail =>
          .var (String.mk (trimChars inner)) :: parseHb fuel tail
      | _ => .text '\x7b' :: parseHb fuel ('\x7b' :: rest)
  | fuel + 1, c :: rest => .text c :: parseHb fuel rest

/-- First-match association lookup in a bindings map. -/
def lookupVar (m : List (String × String)) (k : String) : Option String :=
  (m.find? (fun p => p.1 == k)).map (fun p => p.2)

/-- The Handlebars escapeExpression character mapping. -/
def escapeHbChar (c : Char) : List Char :=
  if c = '&' then "&amp;".toList
  else if c = '<' then "&lt;".toList
  else if c = '>' then "&gt;".toList
  else if c = '"' then "&quot;".toList
  else if c = '\x27' then "&#x27;".toList
  else if c = '`' then "&#x60;".toList
  else if c = '=' then "&#x3D;".toList
  else [c]

/-- HTML-encode a value for escaped interpolation. -/
def escapeHb (s : String) : List Char :=
  (s.toList.map escapeHbChar).flatten

/-- Render a parsed token list against bindings: text verbatim, escaped
variables HTML-encoded, raw variables verbatim, missing variables as
the empty string. -/
def renderHbToks (m : List (String × String)) : List HbTok → List Char
  | [] => []
  | .text c :: rest => c :: renderHbToks m rest
  | .var n :: rest => escapeHb ((lookupVar m n).getD "") ++ renderHbToks m rest
  | .raw n :: rest => ((lookupVar m n).getD "").toList ++ renderHbToks m rest

/-- Compile and render one template string against bindings. -/
def renderHb (template : String) (m : List (String × String)) : String :=
  String.mk (renderHbToks m (parseHb (template.toList.length + 1) template.toList))

/-! ## Note variable bindings (TemplateEngine.extractNoteVariables,
templateEngine.ts 18-50) -/

/-- A notes row as the renderer consumes it; the timestamps are the
ISO-8601 strings toISOString produces. -/
structure Note where
  title : String
  content : String
  created_at : String
  updated_at : String

/-- The ambient inputs of extractNoteVariables that come from the clock
and from the external markdown converter (marked followed by the
default DOMPurify pass): the five date helper values and the
markdown-to-HTML function. -/
structure RenderEnv where
  today : String
  now : String
  current_year : String
  current_month : String
  current_date : String
  md2html : String → String

/-- JavaScript object assignment on the bindings map: replace the value
in place when the key exists, append otherwise. -/
def setVar (m : List (String × String)) (k v : String) : List (String × String) :=
  if (m.find? (fun p => p.1 == k)).isSome then
    m.map (fun p => if p.1 == k then (k, v) else p)
  else m ++ [(k, v)]

/-- TemplateEngine.extractNoteVariables: the fixed note/date bindings,
then for every mustache token found in the NOTE CONTENT whose name is
not already bound to a truthy (nonempty) value, a placeholder binding
of the literal bracketed name. -/
def extractNoteVariables (env : RenderEnv) (note : Note) : List (String × String) :=
  let base : List (String × String) :=
    [("note_title", note.title),
     ("note_content", note.content),
     ("note_content_html", env.md2html note.content),
     ("note_created_at", note.created_at),
     ("note_updated_at", note.updated_at),
     ("today", env.today),
     ("now", env.now),
     ("current_year", env.current_year),
     ("current_month", env.current_month),
     ("current_date", env.current_date)]
  (mustacheMatches note.content).foldl
    (fun m inner =>
      let variableName :=
        String.mk (trimChars (inner.filter (fun c => c ≠ '\x7b' && c ≠ '\x7d')))
      if (lookupVar m variableName).getD "" = "" then
        setVar m variableName ("[" ++ variableName ++ "]")
      else m)
    base

/-! ## HTML parsing and serialization

The string-level sanitizer of the source is DOMPurify applied to the
rendered HTML; DOMPurify parses the string into a DOM, walks it, and
serializes the clean tree back to a string.  Modelled from the spec:
the parser below is a plain lenient HTML reader (lowercased tag and
attribute names, quoted or bare attribute values, void elements,
unmatched constructs degrade to text), and the serializer writes tags
back with entity-escaped text and attribute values. -/

/-- Characters allowed in tag and attribute names. -/
def isNameChar (c : Char) : Bool :=
  isAsciiAlpha c || (48 ≤ c.toNat && c.toNat ≤ 57) || c = '-' || c = '_' || c = ':'

/-- The character references the reader decodes: the named entities the
serializer emits plus the common named and numeric forms. -/
def entityTable : List (List Char × Char) :=
  [("amp;".toList, '&'), ("lt;".toList, '<'), ("gt;".toList, '>'),
   ("quot;".toList, '\x22'), ("apos;".toList, '\x27'),
   ("#39;".toList, '\x27'), ("nbsp;".toList, '\xa0')]

/-- Try to decode one character reference at the position just after an
ampersand: the decoded character and the remaining input. -/
def matchEntity (cs : List Char) : Option (Char × List Char) :=
  (entityTable.find? (fun e => e.1.isPrefixOf cs)).map
    (fun e => (e.2, cs.drop e.1.length))

/-- Decode the character references of an attribute value. -/
def decodeEntities : Nat → List Char → List Char
  | 0, cs => cs
  | _ + 1, [] => []
  | fuel + 1, c :: rest =>
      if c = '&' then
        (match matchEntity rest with
        | some r => r.1 :: decodeEntities fuel r.2
        | none => '&' :: decodeEntities fuel rest)
      else c :: decodeEntities fuel rest

/-- Parse the attribute list of an open tag, up to and including the
closing angle bracket, decoding character references in values; none
when the tag never closes. -/
def parseAttrsH : Nat → List Char → Option (List (String × String) × Bool × List Char)
  | 0, _ => none
  | fuel + 1, cs =>
      match cs.dropWhile jsWs with
      | [] => none
      | c1 :: rest1 =>
          if c1 = '>' then some ([], false, rest1)
          else if c1 = '/' ∧ rest1.head? = some '>' then some ([], true, rest1.tail)
          else
            let aname := (c1 :: rest1).takeWhile isNameChar
            if aname.isEmpty then none
            else
              let afterName := ((c1 :: rest1).drop aname.length).dropWhile jsWs
              match afterName with
              | '=' :: restv =>
                  let restv2 := restv.dropWhile jsWs
                  (match restv2 with
                  | '\x22' :: vrest =>
                      let v := vrest.takeWhile (fun c => c ≠ '\x22')
                      (match vrest.drop v.length with
                      | '\x22' :: tail =>
                          (parseAttrsH fuel tail).map
                            (fun r => ((lowerStr (String.mk aname),
                              String.mk (decodeEntities (v.length + 1) v)) :: r.1, r.2.1, r.2.2))
                      | _ => none)
                  | '\x27' :: vrest =>
                      let v := vrest.takeWhile (fun c => c ≠ '\x27')
                      (match vrest.drop v.length with
                      | '\x27' :: tail =>
                          (parseAttrsH fuel tail).map
                            (fun r => ((lowerStr (String.mk aname),
                              String.mk (decodeEntities (v.length + 1) v)) :: r.1, r.2.1, r.2.2))
                      | _ => none)
                  | _ =>
                      let v := restv2.takeWhile (fun c => !(jsWs c) && c ≠ '>')
                      (parseAttrsH fuel (restv2.drop v.length)).map
                        (fun r => ((lowerStr (String.mk aname),
                          String.mk (decodeEntities (v.length + 1) v)) :: r.1, r.2.1, r.2.2))
)
              | _ =>
                  (parseAttrsH fuel afterName).map
                    (fun r => ((lowerStr (String.mk aname), "") :: r.1, r.2.1, r.2.2))

/-- One lexical token of the HTML reader. -/
inductive HTok where
  | text (c : Char) : HTok
  | tagOpen (name : String) (attrs : List (String × String)) (selfClose : Bool) : HTok
  | tagClose (name : String) : HTok

/-- Read one token at the current position: a close tag, an open tag
with decoded attribute values, or a decoded character reference.
Returns none when the position holds plain character data (including a
malformed tag or a bare ampersand, which degrade to text). -/
def nextTok : List Char → Option (HTok × List Char)
  | [] => none
  | c :: rest =>
      if c = '<' then
        if rest.head? = some '/' then
          (let rest2 := rest.tail
           let name := rest2.takeWhile isNameChar
           if name.isEmpty then none
           else
             (match (rest2.drop name.length).dropWhile jsWs with
             | '>' :: tail => some (.tagClose (lowerStr (String.mk name)), tail)
             | _ => none))
        else
          (let name := rest.takeWhile isNameChar
           if name.isEmpty then none
           else
             (match parseAttrsH (rest.length + 1) (rest.drop name.length) with
             | some (attrs, sc, tail) =>
                 some (.tagOpen (lowerStr (String.mk name)) attrs sc, tail)
             | none => none))
      else if c = '&' then
        (matchEntity rest).map (fun r => (HTok.text r.1, r.2))
      else none

/-- Tokenize an HTML string: tags and character references are read by
nextTok; everything else, including malformed tags and bare ampersands,
is literal text. -/
def tokenizeHtml : Nat → List Char → List HTok
  | 0, _ => []
  | _ + 1, [] => []
  | fuel + 1, c :: rest =>
      (match nextTok (c :: rest) with
      | some (t, tail) => t :: tokenizeHtml fuel tail
      | none => .text c :: tokenizeHtml fuel rest)

/-- The HTML void elements: parsed and serialized without a closing
tag and without children. -/
def voidTags : List String :=
  ["area", "base", "br", "col", "embed", "hr", "img", "input", "link",
   "meta", "param", "source", "track", "wbr"]

/-- Prepend a character to a forest, merging with a leading text node
the way the DOM merges adjacent character data. -/
def consText (c : Char) : List HNode → List HNode
  | .text s :: ns => .text (String.mk (c :: s.toList)) :: ns
  | ns => .text (String.mk [c]) :: ns

/-- Build a forest from the token stream; stops at an unconsumed close
tag so the caller can recover. -/
def buildForest : Nat → List HTok → List HNode × List HTok
  | 0, toks => ([], toks)
  | _ + 1, [] => ([], [])
  | fuel + 1, .text c :: rest =>
      let r := buildForest fuel rest
      (consText c r.1, r.2)
  | _ + 1, .tagClose n :: rest => ([], .tagClose n :: rest)
  | fuel + 1, .tagOpen n attrs sc :: rest =>
      if sc || n ∈ voidTags then
        let r := buildForest fuel rest
        (.elem n attrs [] :: r.1, r.2)
      else
        let rc := buildForest fuel rest
        (match rc.2 with
        | .tagClose m :: rest2 =>
            if m == n then
              let rs := buildForest fuel rest2
              (.elem n attrs rc.1 :: rs.1, rs.2)
            else ([.elem n attrs rc.1], rc.2)
        | _ => ([.elem n attrs rc.1], rc.2))

/-- Top-level parse loop: build forests, dropping stray close tags. -/
def parseHtmlToks : Nat → List HTok → List HNode
  | 0, _ => []
  | _ + 1, [] => []
  | fuel + 1, toks =>
      let r := buildForest (2 * toks.length + 2) toks
      (match r.2 with
      | .tagClose _ :: rest => r.1 ++ parseHtmlToks fuel rest
      | _ => r.1)

/-- Parse an HTML string into a DOM forest. -/
def parseHtml (s : String) : List HNode :=
  let toks := tokenizeHtml (s.toList.length + 1) s.toList
  parseHtmlToks (toks.length + 1) toks

/-- Entity escaping of serialized character data. -/
def escapeTextChar (c : Char) : List Char :=
  if c = '&' then "&amp;".toList
  else if c = '<' then "&lt;".toList
  else if c = '>' then "&gt;".toList
  else [c]

/-- Entity escaping inside a serialized double-quoted attribute value. -/
def escapeAttrChar (c : Char) : List Char :=
  if c = '&' then "&amp;".toList
  else if c = '\x22' then "&quot;".toList
  else [c]

/-- Serialize an attribute list. -/
def serializeAttrs (attrs : List (String × String)) : List Char :=
  (attrs.map (fun a =>
    (' ' :: a.1.toList) ++ ('=' :: '\x22' :: (a.2.toList.map escapeAttrChar).flatten) ++ ['\x22'])).flatten

/-- Serialize a DOM forest back to HTML text. -/
def serializeNodes : List HNode → List Char
  | [] => []
  | .text s :: rest => (s.toList.map escapeTextChar).flatten ++ serializeNodes rest
  | .elem t a c :: rest =>
      if t ∈ voidTags then
        '<' :: (t.toList ++ serializeAttrs a ++ ['>']) ++ serializeNodes rest
      else
        '<' :: (t.toList ++ serializeAttrs a ++ ['>']) ++ serializeNodes c ++
          ('<' :: '/' :: t.toList ++ ['>']) ++ serializeNodes rest

/-- TemplateEngine.sanitizeHtml at string level: parse, walk with the
configured allow-lists, serialize. -/
def sanitizeHtml (html : String) : String :=
  String.mk (serializeNodes (sanitizeNodes (parseHtml html)))

/-! ## TemplateEngine.htmlToText (templateEngine.ts 99-115)

The source chains global regex replaces; each pass below implements one
of them with the exact left-to-right, non-overlapping semantics. -/

/-- Replace the break-tag pattern (case-insensitive br with optional
whitespace and optional slash before the closing bracket) by a
newline. -/
def replaceBrPass : Nat → List Char → List Char
  | 0, cs => cs
  | _ + 1, [] => []
  | fuel + 1, '<' :: rest =>
      (match rest with
      | b :: r :: tail =>
          if lowerChar b = 'b' && lowerChar r = 'r' then
            (match tail.dropWhile jsWs with
            | '/' :: '>' :: t => '\n' :: replaceBrPass fuel t
            | '>' :: t => '\n' :: replaceBrPass fuel t
            | _ => '<' :: replaceBrPass fuel rest)
          else '<' :: replaceBrPass fuel rest
      | _ => '<' :: replaceBrPass fuel rest)
  | fuel + 1, c :: rest => c :: replaceBrPass fuel rest

/-- Global case-insensitive replace of one fixed pattern. -/
def replaceCI (pat repl : String) : Nat → List Char → List Char
  | 0, cs => cs
  | _ + 1, [] => []
  | fuel + 1, c :: rest =>
      if (pat.toList.map lowerChar).isPrefixOf ((c :: rest).map lowerChar) then
        repl.toList ++ replaceCI pat repl fuel ((c :: rest).drop pat.toList.length)
      else c :: replaceCI pat repl fuel rest

/-- Global case-sensitive replace of one fixed pattern. -/
def replaceAllStr (pat repl : String) : Nat → List Char → List Char
  | 0, cs => cs
  | _ + 1, [] => []
  | fuel + 1, c :: rest =>
      if pat.toList.isPrefixOf (c :: rest) then
        repl.toList ++ replaceAllStr pat repl fuel ((c :: rest).drop pat.toList.length)
      else c :: replaceAllStr pat repl fuel rest

/-- Replace closing heading tags (levels one to six, case-insensitive)
by a blank line. -/
def replaceHClosePass : Nat → List Char → List Char
  | 0, cs => cs
  | _ + 1, [] => []
  | fuel + 1, '<' :: '/' :: h :: d :: '>' :: rest =>
      if lowerChar h = 'h' && (49 ≤ d.toNat && d.toNat ≤ 54) then
        '\n' :: '\n' :: replaceHClosePass fuel rest
      else '<' :: replaceHClosePass fuel ('/' :: h :: d :: '>' :: rest)
  | fuel + 1, c :: rest => c :: replaceHClosePass fuel rest

/-- Strip every remaining tag: an opening bracket up to the next
closing bracket is removed; an opening bracket never followed by a
closing one stays literal. -/
def stripTagsPass : Nat → List Char → List Char
  | 0, cs => cs
  | _ + 1, [] => []
  | fuel + 1, '<' :: rest =>
      let pre := rest.takeWhile (fun c => c ≠ '>')
      (match rest.drop pre.length with
      | '>' :: tail => stripTagsPass fuel tail
      | _ => '<' :: rest)
  | fuel + 1, c :: rest => c :: stripTagsPass fuel rest

/-- Collapse three or more newlines (with interleaved whitespace) to a
blank line: at a newline whose maximal whitespace run holds at least
three newlines, the run up to its last newline is replaced by two
newlines and scanning resumes after that last newline — the
backtracking behaviour of the greedy source regex. -/
def collapseNlPass : Nat → List Char → List Char
  | 0, cs => cs
  | _ + 1, [] => []
  | fuel + 1, '\n' :: rest =>
      let run := '\n' :: rest.takeWhile jsWs
      if 3 ≤ (run.filter (fun c => c = '\n')).length then
        let afterLast := run.length - (run.reverse.takeWhile (fun c => c ≠ '\n')).length
        '\n' :: '\n' ::
          collapseNlPass fuel (run.drop afterLast ++ rest.drop (run.length - 1))
      else '\n' :: collapseNlPass fuel rest
  | fuel + 1, c :: rest => c :: collapseNlPass fuel rest

/-- TemplateEngine.htmlToText: break and block closing tags to
newlines, strip remaining tags, decode the standard entities, collapse
newline runs, trim. -/
def htmlToText (html : String) : String :=
  let s0 := html.toList
  let s1 := replaceBrPass (s0.length + 1) s0
  let s2 := replaceCI "</p>" "\n\n" (s1.length + 1) s1
  let s3 := replaceCI "</div>" "\n" (s2.length + 1) s2
  let s4 := replaceHClosePass (s3.length + 1) s3
  let s5 := stripTagsPass (s4.length + 1) s4
  let s6 := replaceAllStr "&nbsp;" " " (s5.length + 1) s5
  let s7 := replaceAllStr "&amp;" "&" (s6.length + 1) s6
  let s8 := replaceAllStr "&lt;" "<" (s7.length + 1) s7
  let s9 := replaceAllStr "&gt;" ">" (s8.length + 1) s8
  let s10 := replaceAllStr "&quot;" "\x22" (s9.length + 1) s9
  let s11 := replaceAllStr "&#39;" "\x27" (s10.length + 1) s10
  let s12 := collapseNlPass (s11.length + 1) s11
  String.mk (trimChars s12)

/-! ## TemplateEngine.renderTemplate (templateEngine.ts 71-94) -/

/-- An email_templates row as the renderer and dispatcher consume it. -/
structure EmailTemplate where
  name : String
  subject : String
  body : String
  vars : List String
  version : Nat
  is_active : Bool

/-- The rendering result shape of the source. -/
structure Rendered where
  subject : String
  body_html : String
  body_text : String
  variables_used : List (String × String)

/-- TemplateEngine.renderTemplate: build the note bindings, render
subject and body, sanitize the body HTML, derive plain text. -/
def renderTemplate (env : RenderEnv) (template : EmailTemplate) (note : Note) : Rendered :=
  let binds := extractNoteVariables env note
  let subject := renderHb template.subject binds
  let bodyHtml := renderHb template.body binds
  let sanitizedHtml := sanitizeHtml bodyHtml
  let bodyText := htmlToText sanitizedHtml
  { subject := subject, body_html := sanitizedHtml,
    body_text := bodyText, variables_used := binds }

/-- A concrete rendering environment used by witnesses. -/
def sampleEnv : RenderEnv :=
  { today := "2026-10-11", now := "2026-10-11T00:00:00.000Z",
    current_year := "2026", current_month := "October",
    current_date := "10/11/2026", md2html := fun _ => "" }

/-- A concrete note used by witnesses. -/
def sampleNote : Note :=
  { title := "T", content := "hello",
    created_at := "2026-10-01T00:00:00.000Z",
    updated_at := "2026-10-02T00:00:00.000Z" }

/-- A concrete template whose body references a variable that is bound
nowhere. -/
def sampleUnknownTemplate : EmailTemplate :=
  { name := "t", subject := "s", body := "\x7b\x7bunknown_var\x7d\x7d",
    vars := ["unknown_var"], version := 1, is_active := true }

/-- C2 counterexample: the placeholder policy does not apply to
variables that merely appear in the template — the bindings carry
placeholders only for tokens found in the note content.  Rendering a
template referencing a variable absent from the bindings yields the
empty string, not the bracketed placeholder. -/
theorem render_unknown_var_counterexample :
    lookupVar (extractNoteVariables sampleEnv sampleNote) "unknown_var" = none ∧
    (renderTemplate sampleEnv sampleUnknownTemplate sampleNote).body_html = "" ∧
    containsSub (renderTemplate sampleEnv sampleUnknownTemplate sampleNote).body_html
      "[unknown_var]" = false := by
  have h1 : renderHb sampleUnknownTemplate.body
      (extractNoteVariables sampleEnv sampleNote) = "" := rfl
  have h2 : (renderTemplate sampleEnv sampleUnknownTemplate sampleNote).body_html = "" := by
    simp only [renderTemplate]
    rw [h1]
    unfold sanitizeHtml
    rw [show parseHtml "" = [] from rfl]
    rw [sanitizeNodes, serializeNodes]
  refine ⟨rfl, h2, ?_⟩
  rw [h2]
  decide

/-- C2 (amended): a template variable missing from the bindings renders
as the empty string and rendering is total; the literal bracketed
placeholder is produced only for mustache tokens found in the note
content — such a token is bound to the bracketed name, and a template
referencing it renders to that placeholder. -/
theorem render_placeholder_policy (m : List (String × String)) (v : String)
    (h : lookupVar m v = none) :
    renderHbToks m [HbTok.var v] = [] ∧
    lookupVar (extractNoteVariables sampleEnv
        { sampleNote with content := "Hi \x7b\x7bcustom_var\x7d\x7d" }) "custom_var"
      = some "[custom_var]" ∧
    (renderTemplate sampleEnv
        { sampleUnknownTemplate with body := "\x7b\x7bcustom_var\x7d\x7d" }
        { sampleNote with content := "Hi \x7b\x7bcustom_var\x7d\x7d" }).body_html
      = "[custom_var]" := by
  refine ⟨?_, rfl, ?_⟩
  · simp [renderHbToks, h, escapeHb]
  · have h1 : renderHb "\x7b\x7bcustom_var\x7d\x7d"
        (extractNoteVariables sampleEnv
          { sampleNote with content := "Hi \x7b\x7bcustom_var\x7d\x7d" })
        = "[custom_var]" := rfl
    simp only [renderTemplate]
    rw [h1]
    unfold sanitizeHtml
    rw [show parseHtml "[custom_var]" = [HNode.text "[custom_var]"] from rfl]
    rw [sanitizeNodes, sanitizeNodes, serializeNodes, serializeNodes]
    rfl

/-- Witness for the placeholder-policy theorem at concrete bindings. -/
theorem render_placeholder_policy_witness :
    renderHbToks (extractNoteVariables sampleEnv sampleNote) [HbTok.var "unknown_var"] = [] :=
  (render_placeholder_policy (extractNoteVariables sampleEnv sampleNote)
    "unknown_var" rfl).1

/-! ## Provider adapters (emailService.ts, nylasEmailService.ts)

Each adapter wraps its whole body in a try/catch and returns the
uniform result shape.  The transport itself (fetch, nodemailer) is
external; its observable outcome is a parameter, and the body is an
Except computation so that a thrown transport error is visible in the
model and demonstrably converted by the catch wrapper. -/

/-- The uniform adapter result shape of both services. -/
structure EmailSendResult where
  messageId : String
  success : Bool
  error : Option String
deriving Repr, DecidableEq

/-- How the body of a Nylas HTTP error response parses: JSON parsing
threw (keeping the raw text), parsed without a truthy message field, or
parsed with the first truthy of error.message / message. -/
inductive BodyParse where
  | failed (raw : String) : BodyParse
  | noMsg : BodyParse
  | msg (m : String) : BodyParse
deriving Repr, DecidableEq

/-- The observable outcome of the Nylas send fetch call. -/
inductive NylasTransport where
  | throws (m : String) : NylasTransport
  | httpError (status : Nat) (body : BodyParse) : NylasTransport
  | okParsed (parsedId : Option String) : NylasTransport
  | okUnparsable : NylasTransport
deriving Repr, DecidableEq

/-- The send endpoint built at nylasEmailService.ts line 85: the
template literal interpolates a hard-coded grant id constant, so the
grantId parameter does not appear in the URL. -/
def nylasSendUrl (grantId : String) : String :=
  "https://api.us.nylas.com/v3/grants/" ++ "dcbd389c-d486-4d70-8c82-022dc738806e"
    ++ "/messages/send"

/-- The error message construction of the non-ok branch (lines
97-111). -/
def nylasErrorMessage (status : Nat) (b : BodyParse) : String :=
  match b with
  | .failed raw => String.mk (raw.toList.take 200)
  | .noMsg => "HTTP " ++ toString status
  | .msg m => m

/-- The try-block of NylasEmailService.sendEmail as an Except
computation: every non-2xx response and every parse failure becomes a
thrown error; a 2xx response yields the success shape with the first
truthy of data.id / id (empty when absent). -/
def nylasSendBody (t : NylasTransport) : Except String EmailSendResult :=
  match t with
  | .throws m => .error m
  | .httpError status b => .error (nylasErrorMessage status b)
  | .okUnparsable => .error "Invalid JSON response from Nylas API"
  | .okParsed pid => .ok { messageId := pid.getD "", success := true, error := none }

/-- NylasEmailService.sendEmail: the request URL used and the adapter
result; the catch wrapper converts any thrown error into the uniform
failure shape (with the fallback message when the thrown message is
empty, the or-else of line 135). -/
def nylasSendEmail (grantId : String) (recipients : List String)
    (subject bodyHtml bodyText : String) (t : NylasTransport) :
    String × EmailSendResult :=
  (nylasSendUrl grantId,
   match nylasSendBody t with
   | .ok r => r
   | .error e =>
       { messageId := "", success := false,
         error := some (if e = "" then "Failed to send email" else e) })

/-- A users row as the send paths read it. -/
structure User where
  email : String
  gmail_access_token : Option String
  gmail_refresh_token : Option String
  nylas_access_token : Option String
  has_nylas_auth : Bool
deriving Repr, DecidableEq

/-- The observable outcome of the nodemailer transport (token refresh
and sendMail collapsed to one throw-or-send outcome). -/
inductive MailTransport where
  | throws (m : String) : MailTransport
  | sent (messageId : String) : MailTransport
deriving Repr, DecidableEq

/-- The try-block of EmailService.sendEmail: a missing (falsy) refresh
token throws before any transport work; otherwise the transport either
throws or yields the message id. -/
def gmailSendBody (u : User) (t : MailTransport) : Except String EmailSendResult :=
  if u.gmail_refresh_token.getD "" = "" then
    .error "User has not authorized Gmail access"
  else
    match t with
    | .throws m => .error m
    | .sent mid => .ok { messageId := mid, success := true, error := none }

/-- EmailService.sendEmail: the catch wrapper returns the uniform
failure shape carrying the thrown message. -/
def gmailSendEmail (u : User) (t : MailTransport) : EmailSendResult :=
  match gmailSendBody u t with
  | .ok r => r
  | .error e => { messageId := "", success := false, error := some e }

/-- C9: both adapters are total over every transport outcome and always
return the uniform shape — success with a message id and no error, or
failure with an error message; in particular a thrown transport
exception is caught, never propagated, and a caught Except error always
surfaces as the failure shape. -/
theorem adapters_uniform_result :
    (∀ (g : String) (rcpts : List String) (s bh bt : String) (t : NylasTransport),
       ((nylasSendEmail g rcpts s bh bt t).2.success = true ∧
          (nylasSendEmail g rcpts s bh bt t).2.error = none) ∨
       ((nylasSendEmail g rcpts s bh bt t).2.success = false ∧
          ((nylasSendEmail g rcpts s bh bt t).2.error).isSome = true))
    ∧ (∀ (u : User) (t : MailTransport),
       ((gmailSendEmail u t).success = true ∧ (gmailSendEmail u t).error = none) ∨
       ((gmailSendEmail u t).success = false ∧ ((gmailSendEmail u t).error).isSome = true))
    ∧ (∀ (g : String) (rcpts : List String) (s bh bt m : String),
       (nylasSendEmail g rcpts s bh bt (NylasTransport.throws m)).2.success = false)
    ∧ (∀ (u : User) (m : String),
       (gmailSendEmail u (MailTransport.throws m)).success = false)
    ∧ (∀ (g : String) (rcpts : List String) (s bh bt pid : String),
       (nylasSendEmail g rcpts s bh bt (NylasTransport.okParsed (some pid))).2 =
         { messageId := pid, success := true, error := none })
    ∧ (∀ (u : User) (mid : String),
       gmailSendEmail { u with gmail_refresh_token := some "tok" }
           (MailTransport.sent mid) =
         { messageId := mid, success := true, error := none }) := by
  refine ⟨?_, ?_, ?_, ?_, ?_, ?_⟩
  · intro g rcpts s bh bt t
    cases t with
    | throws m => right; simp [nylasSendEmail, nylasSendBody]
    | httpError st b => right; simp [nylasSendEmail, nylasSendBody]
    | okParsed pid => left; simp [nylasSendEmail, nylasSendBody]
    | okUnparsable => right; simp [nylasSendEmail, nylasSendBody]
  · intro u t
    by_cases h : u.gmail_refresh_token.getD "" = ""
    · right; simp [gmailSendEmail, gmailSendBody, h]
    · cases t with
      | throws m => right; simp [gmailSendEmail, gmailSendBody, h]
      | sent mid => left; simp [gmailSendEmail, gmailSendBody, h]
  · intro g rcpts s bh bt m
    simp [nylasSendEmail, nylasSendBody]
  · intro u m
    by_cases h : u.gmail_refresh_token.getD "" = "" <;>
      simp [gmailSendEmail, gmailSendBody, h]
  · intro g rcpts s bh bt pid
    simp [nylasSendEmail, nylasSendBody]
  · intro u mid
    simp [gmailSendEmail, gmailSendBody]

/-- C10: the Nylas send request URL is the same for every grantId — it
interpolates a hard-coded grant id constant, so two sends differing
only in the credential go to the identical endpoint. -/
theorem nylas_send_url_constant :
    (∀ g1 g2 : String, nylasSendUrl g1 = nylasSendUrl g2)
    ∧ (∀ g : String, nylasSendUrl g =
        "https://api.us.nylas.com/v3/grants/dcbd389c-d486-4d70-8c82-022dc738806e/messages/send")
    ∧ (∀ (g1 g2 : String) (rcpts : List String) (s bh bt : String) (t : NylasTransport),
        (nylasSendEmail g1 rcpts s bh bt t).1 = (nylasSendEmail g2 rcpts s bh bt t).1) := by
  refine ⟨fun g1 g2 => rfl, fun g => rfl, fun g1 g2 rcpts s bh bt t => rfl⟩

/-! ## The dispatch pipeline (POST /send) and retry (POST /sent/:id/retry)

The router executes: validation, idempotency lookup, template and note
lookup, render, insert of the pending sent_emails row, credential read
and provider selection, send, finalize.  The database is the list of
sent_emails rows; the template/note lookups and the clock are oracle
fields of the environment; record ids are the insertion index.  The
outcome carries counters of provider calls and renders performed so the
no-work clauses of the claims are observable. -/

/-- Send status of a sent_emails row. -/
inductive SendStatus where
  | pending : SendStatus
  | sent : SendStatus
  | failed : SendStatus
deriving Repr, DecidableEq

/-- A sent_emails row. -/
structure SentEmail where
  id : Nat
  note_id : String
  template_id : String
  template_version : Nat
  idempotency_key : String
  recipients : List String
  subject : String
  body_html : String
  body_text : String
  status : SendStatus
  error_message : Option String
  provider_message_id : Option String
  sent_at : Option Nat
deriving Repr, DecidableEq

/-- The two provider adapters the send path can pick. -/
inductive Provider where
  | nylas : Provider
  | gmail : Provider
deriving Repr, DecidableEq

/-- Provider selection of POST /send (lines 105-125): Nylas when the
user has Nylas auth and a truthy token, else Gmail when either Gmail
token is truthy, else none. -/
def selectProvider (u : User) : Option Provider :=
  if u.has_nylas_auth && !(u.nylas_access_token.getD "" == "") then
    some Provider.nylas
  else if !(u.gmail_access_token.getD "" == "") ||
          !(u.gmail_refresh_token.getD "" == "") then
    some Provider.gmail
  else none

/-- EmailService.updateSentEmailStatus (emailService.ts 181-195): set
status, provider message id and error message on the row with the given
id; sent_at is the clock on success and null otherwise. -/
def updateSentEmailStatus (st : List SentEmail) (id : Nat) (status : SendStatus)
    (pmid : Option String) (err : Option String) (now : Nat) : List SentEmail :=
  st.map (fun r =>
    if r.id = id then
      { r with status := status, provider_message_id := pmid,
               error_message := err,
               sent_at := if status = SendStatus.sent then some now else none }
    else r)

/-- The request body of POST /send after key generation: when the
caller supplied no idempotency key the router has already generated a
fresh one. -/
structure SendRequest where
  note_id : String
  template_id : String
  recipients : List String
  idempotency_key : String
deriving Repr, DecidableEq

/-- The validation guard of the router (line 21). -/
def validReq (req : SendRequest) : Bool :=
  !(req.note_id == "") && !(req.template_id == "") && !(req.recipients.isEmpty)

/-- The oracles of one dispatch call: the template/note lookup results
for this caller, the users row, the rendering environment, the two
transport outcomes should the respective adapter be invoked, and the
clock. -/
structure DispatchEnv where
  template : Option EmailTemplate
  note : Option Note
  user : User
  renv : RenderEnv
  nylasT : NylasTransport
  gmailT : MailTransport
  now : Nat

/-- The response of the send and retry routes. -/
inductive DispatchResponse where
  | badRequest (msg : String) : DispatchResponse
  | replay (id : Nat) (status : SendStatus) (sentAt : Option Nat) : DispatchResponse
  | notFound (msg : String) : DispatchResponse
  | sent (id : Nat) (messageId : String) : DispatchResponse
  | sendFailed (error : String) (details : Option String) : DispatchResponse
  | serverError (msg : String) : DispatchResponse
deriving Repr, DecidableEq

/-- The identifier and status a response exposes, when it exposes one. -/
def respIdStatus : DispatchResponse → Option (Nat × SendStatus)
  | .replay id s _ => some (id, s)
  | .sent id _ => some (id, SendStatus.sent)
  | _ => none

/-- Idempotency lookup (line 32). -/
def findByKey (st : List SentEmail) (k : String) : Option SentEmail :=
  st.find? (fun r => r.idempotency_key == k)

/-- The result of one dispatch call: the rows afterwards, the response,
and counters of provider sends and template renders performed. -/
structure DispatchOutcome where
  state : List SentEmail
  response : DispatchResponse
  providerCalls : Nat
  renders : Nat
deriving Repr, DecidableEq

/-- The finalize step shared by the success and failure arms of the
send (lines 127-158). -/
def finalizeDispatch (st1 : List SentEmail) (newId : Nat) (res : EmailSendResult)
    (now : Nat) : DispatchOutcome :=
  if res.success then
    { state := updateSentEmailStatus st1 newId SendStatus.sent (some res.messageId) none now,
      response := .sent newId res.messageId, providerCalls := 1, renders := 1 }
  else
    { state := updateSentEmailStatus st1 newId SendStatus.failed none res.error now,
      response := .sendFailed "Failed to send email" res.error,
      providerCalls := 1, renders := 1 }

/-- The pending sent_emails row the router inserts (line 77): rendered
content and the template version captured at render time. -/
def newRecord (st : List SentEmail) (req : SendRequest) (template : EmailTemplate)
    (note : Note) (renv : RenderEnv) : SentEmail :=
  { id := st.length, note_id := req.note_id, template_id := req.template_id,
    template_version := template.version,
    idempotency_key := req.idempotency_key,
    recipients := req.recipients,
    subject := (renderTemplate renv template note).subject,
    body_html := (renderTemplate renv template note).body_html,
    body_text := (renderTemplate renv template note).body_text,
    status := SendStatus.pending, error_message := none,
    provider_message_id := none, sent_at := none }

/-- POST /send. -/
def dispatch (st : List SentEmail) (env : DispatchEnv) (req : SendRequest) :
    DispatchOutcome :=
  if !(validReq req) then
    { state := st,
      response := .badRequest "Note ID, template ID, and recipients are required",
      providerCalls := 0, renders := 0 }
  else
    match findByKey st req.idempotency_key with
    | some existing =>
        { state := st,
          response := .replay existing.id existing.status existing.sent_at,
          providerCalls := 0, renders := 0 }
    | none =>
      match env.template with
      | none =>
          { state := st, response := .notFound "Template not found",
            providerCalls := 0, renders := 0 }
      | some template =>
        match env.note with
        | none =>
            { state := st, response := .notFound "Note not found",
              providerCalls := 0, renders := 0 }
        | some note =>
          let rendered := renderTemplate env.renv template note
          let newId := st.length
          let record := newRecord st req template note env.renv
          let st1 := st ++ [record]
          match selectProvider env.user with
          | some Provider.nylas =>
              finalizeDispatch st1 newId
                (nylasSendEmail (env.user.nylas_access_token.getD "") req.recipients
                  rendered.subject rendered.body_html rendered.body_text env.nylasT).2
                env.now
          | some Provider.gmail =>
              finalizeDispatch st1 newId (gmailSendEmail env.user env.gmailT) env.now
          | none =>
              { state := updateSentEmailStatus st1 newId SendStatus.failed none
                  (some "No email service configured. Please authorize Nylas or Gmail.")
                  env.now,
                response := .serverError "Failed to send email",
                providerCalls := 0, renders := 1 }

/-- Lookup of a failed row by id (the retry route query restricted to
status failed). -/
def findFailedById (st : List SentEmail) (id : Nat) : Option SentEmail :=
  st.find? (fun r => r.id == id && r.status == SendStatus.failed)

/-- The result of one retry call, recording which adapter was invoked
and with which already-rendered arguments. -/
structure RetryOutcome where
  state : List SentEmail
  response : DispatchResponse
  providerUsed : Option Provider
  sentArgs : Option (List String × String × String × String)
deriving Repr, DecidableEq

/-- POST /sent/:id/retry: only rows with status failed are found; the
send always goes through the Gmail EmailService with the stored
recipients and rendered subject/html/text, and the same finalize step
mutates the row in place. -/
def retry (st : List SentEmail) (id : Nat) (u : User) (t : MailTransport)
    (now : Nat) : RetryOutcome :=
  match findFailedById st id with
  | none =>
      { state := st, response := .notFound "Failed email not found",
        providerUsed := none, sentArgs := none }
  | some r =>
      let res := gmailSendEmail u t
      if res.success then
        { state := updateSentEmailStatus st r.id SendStatus.sent (some res.messageId) none now,
          response := .sent r.id res.messageId,
          providerUsed := some Provider.gmail,
          sentArgs := some (r.recipients, r.subject, r.body_html, r.body_text) }
      else
        { state := updateSentEmailStatus st r.id SendStatus.failed none res.error now,
          response := .sendFailed "Failed to send email" res.error,
          providerUsed := some Provider.gmail,
          sentArgs := some (r.recipients, r.subject, r.body_html, r.body_text) }

/-! ## Lemmas about the dispatch pipeline -/

theorem dispatch_replay_lemma (st : List SentEmail) (env : DispatchEnv)
    (req : SendRequest) (r : SentEmail)
    (hv : validReq req = true)
    (hfind : findByKey st req.idempotency_key = some r) :
    dispatch st env req =
      { state := st, response := .replay r.id r.status r.sent_at,
        providerCalls := 0, renders := 0 } := by
  simp [dispatch, hv, hfind]

theorem findByKey_append (l1 l2 : List SentEmail) (k : String)
    (h : findByKey l1 k = none) :
    findByKey (l1 ++ l2) k = findByKey l2 k := by
  unfold findByKey at *
  induction l1 with
  | nil => simp
  | cons a l ih =>
      simp only [List.find?_cons] at h ⊢
      split at h
      · exact absurd h (by simp)
      · rename_i hx
        simpa [List.find?_cons, hx] using ih (by simpa using h)

theorem findByKey_update (l : List SentEmail) (id : Nat) (s : SendStatus)
    (p e : Option String) (n : Nat) (k : String) :
    findByKey (updateSentEmailStatus l id s p e n) k =
      (findByKey l k).map (fun r =>
        if r.id = id then
          { r with status := s, provider_message_id := p, error_message := e,
                   sent_at := if s = SendStatus.sent then some n else none }
        else r) := by
  unfold findByKey updateSentEmailStatus
  induction l with
  | nil => simp
  | cons a l ih =>
      simp only [List.map_cons, List.find?_cons]
      by_cases hx : (a.idempotency_key == k) = true
      · have hfx : ((if a.id = id then
            { a with status := s, provider_message_id := p, error_message := e,
                     sent_at := if s = SendStatus.sent then some n else none }
          else a).idempotency_key == k) = true := by
          split <;> simpa using hx
        simp [hx, hfx]
      · have hfx : ((if a.id = id then
            { a with status := s, provider_message_id := p, error_message := e,
                     sent_at := if s = SendStatus.sent then some n else none }
          else a).idempotency_key == k) = false := by
          split <;> simpa using hx
        simp only [hfx, hx, cond_false]
        exact ih

theorem dispatch_fresh (st : List SentEmail) (env : DispatchEnv) (req : SendRequest)
    (template : EmailTemplate) (note : Note)
    (hv : validReq req = true)
    (hnone : findByKey st req.idempotency_key = none)
    (htm : env.template = some template)
    (hnote : env.note = some note) :
    dispatch st env req =
      (match selectProvider env.user with
       | some Provider.nylas =>
           finalizeDispatch (st ++ [newRecord st req template note env.renv]) st.length
             (nylasSendEmail (env.user.nylas_access_token.getD "") req.recipients
               (renderTemplate env.renv template note).subject
               (renderTemplate env.renv template note).body_html
               (renderTemplate env.renv template note).body_text env.nylasT).2 env.now
       | some Provider.gmail =>
           finalizeDispatch (st ++ [newRecord st req template note env.renv]) st.length
             (gmailSendEmail env.user env.gmailT) env.now
       | none =>
           { state := updateSentEmailStatus
                 (st ++ [newRecord st req template note env.renv]) st.length
                 SendStatus.failed none
                 (some "No email service configured. Please authorize Nylas or Gmail.")
                 env.now,
             response := .serverError "Failed to send email",
             providerCalls := 0, renders := 1 }) := by
  simp only [dispatch, hv, hnone, htm, hnote, Bool.not_true, Bool.false_eq_true,
    if_false]

theorem findByKey_fresh_insert (st : List SentEmail) (env : DispatchEnv)
    (req : SendRequest) (template : EmailTemplate) (note : Note)
    (hnone : findByKey st req.idempotency_key = none) :
    findByKey (st ++ [newRecord st req template note env.renv]) req.idempotency_key
      = some (newRecord st req template note env.renv) := by
  rw [findByKey_append _ _ _ hnone]
  simp [findByKey, newRecord]

theorem finalize_second (env : DispatchEnv) (req : SendRequest)
    (st1 : List SentEmail) (newId : Nat) (res : EmailSendResult) (now : Nat)
    (r : SentEmail)
    (hv : validReq req = true)
    (hkey : findByKey st1 req.idempotency_key = some r) :
    (finalizeDispatch st1 newId res now).providerCalls = 1 ∧
    (finalizeDispatch st1 newId res now).renders = 1 ∧
    (dispatch (finalizeDispatch st1 newId res now).state env req).providerCalls = 0 ∧
    (dispatch (finalizeDispatch st1 newId res now).state env req).renders = 0 ∧
    (dispatch (finalizeDispatch st1 newId res now).state env req).state =
      (finalizeDispatch st1 newId res now).state ∧
    ∃ r2, findByKey (finalizeDispatch st1 newId res now).state req.idempotency_key
            = some r2 ∧
      (dispatch (finalizeDispatch st1 newId res now).state env req).response =
        .replay r2.id r2.status r2.sent_at := by
  have hcalls : (finalizeDispatch st1 newId res now).providerCalls = 1 := by
    unfold finalizeDispatch; split <;> rfl
  have hrend : (finalizeDispatch st1 newId res now).renders = 1 := by
    unfold finalizeDispatch; split <;> rfl
  obtain ⟨r2, hr2⟩ : ∃ r2,
      findByKey (finalizeDispatch st1 newId res now).state req.idempotency_key
        = some r2 := by
    unfold finalizeDispatch
    split
    · exact ⟨if r.id = newId then
          { r with status := SendStatus.sent,
                   provider_message_id := some res.messageId, error_message := none,
                   sent_at := if SendStatus.sent = SendStatus.sent then some now else none }
        else r, by simp only [findByKey_update, hkey, Option.map_some']⟩
    · exact ⟨if r.id = newId then
          { r with status := SendStatus.failed,
                   provider_message_id := none, error_message := res.error,
                   sent_at := if SendStatus.failed = SendStatus.sent then some now else none }
        else r, by simp only [findByKey_update, hkey, Option.map_some']⟩
  have hrep := dispatch_replay_lemma _ env req r2 hv hr2
  exact ⟨hcalls, hrend, by rw [hrep], by rw [hrep], by rw [hrep],
    ⟨r2, hr2, by rw [hrep]⟩⟩

/-- A concrete users row with Gmail tokens only. -/
def sampleUser : User :=
  { email := "u@example.com", gmail_access_token := some "at",
    gmail_refresh_token := some "rt", nylas_access_token := none,
    has_nylas_auth := false }

/-- A concrete users row with no provider credential at all. -/
def sampleNoAuthUser : User :=
  { email := "u@example.com", gmail_access_token := none,
    gmail_refresh_token := none, nylas_access_token := none,
    has_nylas_auth := false }

/-- A concrete users row with Nylas authorization; dispatch would pick
Nylas for this user. -/
def sampleNylasUser : User :=
  { email := "u@example.com", gmail_access_token := some "at",
    gmail_refresh_token := some "rt", nylas_access_token := some "grant",
    has_nylas_auth := true }

/-- A concrete send request. -/
def sampleReq : SendRequest :=
  { note_id := "n1", template_id := "t1", recipients := ["a@b.c"],
    idempotency_key := "k1" }

/-- A concrete dispatch environment whose provider selection yields
Gmail and whose transport succeeds. -/
def sampleDispatchEnv : DispatchEnv :=
  { template := some sampleUnknownTemplate, note := some sampleNote,
    user := sampleUser, renv := sampleEnv,
    nylasT := NylasTransport.okParsed (some "nid"),
    gmailT := MailTransport.sent "mid", now := 0 }

/-- A concrete dispatch environment with no authorized provider. -/
def sampleNoProviderEnv : DispatchEnv :=
  { template := some sampleUnknownTemplate, note := some sampleNote,
    user := sampleNoAuthUser, renv := sampleEnv,
    nylasT := NylasTransport.okParsed none,
    gmailT := MailTransport.sent "mid", now := 0 }

/-- C1: a dispatch whose key names an existing row returns that row's
current id/status/sent-at verbatim, with the state unchanged and zero
renders and zero provider calls; and for a fresh key that reaches a
provider, the first dispatch performs exactly one provider call while a
second dispatch with the same key performs zero calls and zero renders,
leaves the state untouched and replays the stored row. -/
theorem dispatch_idempotent (st : List SentEmail) (env : DispatchEnv)
    (req : SendRequest) (hv : validReq req = true) :
    (∀ r, findByKey st req.idempotency_key = some r →
        dispatch st env req =
          { state := st, response := .replay r.id r.status r.sent_at,
            providerCalls := 0, renders := 0 }) ∧
    (findByKey st req.idempotency_key = none →
      ∀ template note, env.template = some template → env.note = some note →
        (selectProvider env.user).isSome = true →
          (dispatch st env req).providerCalls = 1 ∧
          (dispatch (dispatch st env req).state env req).providerCalls = 0 ∧
          (dispatch (dispatch st env req).state env req).renders = 0 ∧
          (dispatch (dispatch st env req).state env req).state =
            (dispatch st env req).state ∧
          ∃ r2, findByKey (dispatch st env req).state req.idempotency_key = some r2 ∧
            (dispatch (dispatch st env req).state env req).response =
              .replay r2.id r2.status r2.sent_at) := by
  constructor
  · intro r hfind
    exact dispatch_replay_lemma st env req r hv hfind
  · intro hnone template note htm hnote hsel
    obtain ⟨p, hp⟩ := Option.isSome_iff_exists.mp hsel
    have hfresh := dispatch_fresh st env req template note hv hnone htm hnote
    have hkey1 := findByKey_fresh_insert st env req template note hnone
    rw [hfresh, hp]
    cases p with
    | nylas =>
        have h := finalize_second env req
          (st ++ [newRecord st req template note env.renv]) st.length
          (nylasSendEmail (env.user.nylas_access_token.getD "") req.recipients
            (renderTemplate env.renv template note).subject
            (renderTemplate env.renv template note).body_html
            (renderTemplate env.renv template note).body_text env.nylasT).2
          env.now _ hv hkey1
        exact ⟨h.1, h.2.2.1, h.2.2.2.1, h.2.2.2.2.1, h.2.2.2.2.2⟩
    | gmail =>
        have h := finalize_second env req
          (st ++ [newRecord st req template note env.renv]) st.length
          (gmailSendEmail env.user env.gmailT) env.now _ hv hkey1
        exact ⟨h.1, h.2.2.1, h.2.2.2.1, h.2.2.2.2.1, h.2.2.2.2.2⟩

/-- Witness for the dispatch idempotency theorem at a concrete state,
environment and request. -/
theorem dispatch_idempotent_witness :
    (dispatch [] sampleDispatchEnv sampleReq).providerCalls = 1 ∧
    (dispatch (dispatch [] sampleDispatchEnv sampleReq).state
        sampleDispatchEnv sampleReq).providerCalls = 0 ∧
    (dispatch (dispatch [] sampleDispatchEnv sampleReq).state
        sampleDispatchEnv sampleReq).renders = 0 := by
  have h := (dispatch_idempotent [] sampleDispatchEnv sampleReq (by decide)).2
    rfl sampleUnknownTemplate sampleNote rfl rfl (by decide)
  exact ⟨h.1, h.2.1, h.2.2.1⟩

/-- C7: when no provider credential is usable, dispatch reports a
server error to the caller, performs no provider call, and the row has
nevertheless been created with the rendered content and finalized as
failed carrying the configuration error message — the attempt is
auditable and authorization was only consulted after the row existed. -/
theorem dispatch_no_provider_audit (st : List SentEmail) (env : DispatchEnv)
    (req : SendRequest) (template : EmailTemplate) (note : Note)
    (hv : validReq req = true)
    (hnone : findByKey st req.idempotency_key = none)
    (htm : env.template = some template)
    (hnote : env.note = some note)
    (hsel : selectProvider env.user = none) :
    (dispatch st env req).response = .serverError "Failed to send email" ∧
    (dispatch st env req).providerCalls = 0 ∧
    (dispatch st env req).renders = 1 ∧
    findByKey (dispatch st env req).state req.idempotency_key =
      some { newRecord st req template note env.renv with
             status := SendStatus.failed,
             error_message :=
               some "No email service configured. Please authorize Nylas or Gmail." } ∧
    (newRecord st req template note env.renv).body_html =
      (renderTemplate env.renv template note).body_html ∧
    (newRecord st req template note env.renv).subject =
      (renderTemplate env.renv template note).subject := by
  have hfresh := dispatch_fresh st env req template note hv hnone htm hnote
  rw [hfresh, hsel]
  refine ⟨rfl, rfl, rfl, ?_, rfl, rfl⟩
  have hkey1 := findByKey_fresh_insert st env req template note hnone
  simp only [findByKey_update, hkey1, Option.map_some']
  rw [if_pos (show (newRecord st req template note env.renv).id = st.length from rfl)]
  rfl

/-- Witness for the no-provider audit theorem at a concrete
environment. -/
theorem dispatch_no_provider_audit_witness :
    (dispatch [] sampleNoProviderEnv sampleReq).response =
      .serverError "Failed to send email" ∧
    (dispatch [] sampleNoProviderEnv sampleReq).providerCalls = 0 := by
  have h := dispatch_no_provider_audit [] sampleNoProviderEnv sampleReq
    sampleUnknownTemplate sampleNote (by decide) rfl rfl rfl (by decide)
  exact ⟨h.1, h.2.1⟩

/-- A concrete failed sent_emails row. -/
def sampleFailedRecord : SentEmail :=
  { id := 0, note_id := "n1", template_id := "t1", template_version := 1,
    idempotency_key := "k0", recipients := ["a@b.c"], subject := "s",
    body_html := "<p>b</p>", body_text := "b", status := SendStatus.failed,
    error_message := some "boom", provider_message_id := none, sent_at := none }

/-- C4 counterexample: for a Nylas-authorized user, dispatch selects
the Nylas provider, but retry sends through the Gmail adapter — retry
does not re-run the dispatch selection policy. -/
theorem retry_provider_counterexample :
    selectProvider sampleNylasUser = some Provider.nylas ∧
    (retry [sampleFailedRecord] 0 sampleNylasUser (MailTransport.sent "mid") 1).providerUsed
      = some Provider.gmail := by
  exact ⟨rfl, rfl⟩

/-- C4 (amended): retry is only legal on a failed row (otherwise the
state is untouched and not-found is returned); when legal it always
sends through the Gmail adapter — not through dispatch's provider
selection — passing the stored recipients and already-rendered
subject/html/text unchanged, and it finalizes the same row in place to
sent or failed according to the transport outcome. -/
theorem retry_spec (st : List SentEmail) (id : Nat) (u : User)
    (t : MailTransport) (now : Nat) :
    (∀ r, findFailedById st id = some r →
       (retry st id u t now).providerUsed = some Provider.gmail ∧
       (retry st id u t now).sentArgs =
         some (r.recipients, r.subject, r.body_html, r.body_text) ∧
       ((gmailSendEmail u t).success = true →
          (retry st id u t now).state =
            updateSentEmailStatus st r.id SendStatus.sent
              (some (gmailSendEmail u t).messageId) none now ∧
          (retry st id u t now).response =
            .sent r.id (gmailSendEmail u t).messageId) ∧
       ((gmailSendEmail u t).success = false →
          (retry st id u t now).state =
            updateSentEmailStatus st r.id SendStatus.failed none
              (gmailSendEmail u t).error now ∧
          (retry st id u t now).response =
            .sendFailed "Failed to send email" (gmailSendEmail u t).error)) ∧
    (findFailedById st id = none →
       (retry st id u t now).state = st ∧
       (retry st id u t now).response = .notFound "Failed email not found" ∧
       (retry st id u t now).providerUsed = none ∧
       (retry st id u t now).sentArgs = none) := by
  constructor
  · intro r hr
    unfold retry
    rw [hr]
    dsimp only
    by_cases hs : (gmailSendEmail u t).success = true
    · rw [if_pos hs]
      exact ⟨rfl, rfl, fun _ => ⟨rfl, rfl⟩, fun hc => absurd hs (by simp [hc])⟩
    · rw [if_neg hs]
      exact ⟨rfl, rfl, fun hc => absurd hc hs, fun _ => ⟨rfl, rfl⟩⟩
  · intro hnone
    unfold retry
    rw [hnone]
    exact ⟨rfl, rfl, rfl, rfl⟩

/-- Witness for the retry theorem at a concrete failed row. -/
theorem retry_spec_witness :
    (retry [sampleFailedRecord] 0 sampleNylasUser (MailTransport.sent "mid") 1).providerUsed
      = some Provider.gmail ∧
    (retry [sampleFailedRecord] 0 sampleNylasUser (MailTransport.sent "mid") 1).sentArgs
      = some (["a@b.c"], "s", "<p>b</p>", "b") := by
  have h := (retry_spec [sampleFailedRecord] 0 sampleNylasUser
    (MailTransport.sent "mid") 1).1 sampleFailedRecord rfl
  exact ⟨h.1, h.2.1⟩

/-! ## Round-trip of the sanitizer serialization

The string-level idempotence of the sanitizer reduces to a round-trip
fact: parsing the serialization of a clean forest yields the forest
back, up to the normalization the DOM itself performs (empty and
adjacent character data merged, void elements childless).  This section
establishes that round trip and derives the string-level fixed point. -/

/-- The token stream the tokenizer recovers from a serialized forest. -/
def forestToks : List HNode → List HTok
  | [] => []
  | .text s :: rest => s.toList.map HTok.text ++ forestToks rest
  | .elem t a c :: rest =>
      if t ∈ voidTags then HTok.tagOpen t a false :: forestToks rest
      else
        HTok.tagOpen t a false ::
          (forestToks c ++ (HTok.tagClose t :: forestToks rest))

/-- Whether a forest does not begin with character data. -/
def headNotText : List HNode → Bool
  | .text _ :: _ => false
  | _ => true

/-- A forest in DOM normal form: no empty or adjacent text nodes, void
elements childless, recursively. -/
def isNormal : List HNode → Bool
  | [] => true
  | .text s :: rest => !(s == "") && headNotText rest && isNormal rest
  | .elem t a c :: rest =>
      (if t ∈ voidTags then c.isEmpty else isNormal c) && isNormal rest

/-- DOM normalization: drop empty character data, merge adjacent
character data, empty the children of void elements. -/
def normalizeNodes : List HNode → List HNode
  | [] => []
  | .text s :: rest =>
      if s == "" then normalizeNodes rest
      else
        (match normalizeNodes rest with
        | .text s2 :: ns => .text (s ++ s2) :: ns
        | ns => .text s :: ns)
  | .elem t a c :: rest =>
      .elem t a (if t ∈ voidTags then [] else normalizeNodes c) :: normalizeNodes rest

theorem serializeNodes_normalize (y : List HNode) :
    serializeNodes (normalizeNodes y) = serializeNodes y := by
  induction y using normalizeNodes.induct with
  | case1 => simp [normalizeNodes]
  | case2 s rest hs ih =>
      rw [normalizeNodes, if_pos hs, ih]
      have hs0 : s = "" := by simpa using hs
      subst hs0
      simp [serializeNodes]
  | case3 s rest hs s2 ns hm ih =>
      rw [normalizeNodes, if_neg hs, hm]
      rw [hm] at ih
      simp only [serializeNodes] at ih ⊢
      rw [show (s ++ s2).toList = s.toList ++ s2.toList from String.data_append s s2]
      simp only [List.map_append, List.flatten_append, List.append_assoc, ih]
  | case4 s rest hs hm ih =>
      rw [normalizeNodes, if_neg hs]
      rcases hnr : normalizeNodes rest with _ | ⟨h0, tail⟩
      · rw [hnr] at ih
        dsimp only
        simp only [serializeNodes, ih]
      · cases h0 with
        | text s2 => exact (hm s2 tail hnr).elim
        | elem t a c =>
            rw [hnr] at ih
            dsimp only
            simp only [serializeNodes, ih]
  | case5 t a c rest ih1 ih2 =>
      by_cases hv : t ∈ voidTags
      · simp [normalizeNodes, serializeNodes, hv, ih2]
      · simp [normalizeNodes, serializeNodes, hv, ih1, ih2]

theorem append_ne_empty_left (s s2 : String) (h : ¬ s = "") : ¬ (s ++ s2) = "" := by
  intro hc
  apply h
  have hd := congrArg String.data hc
  rw [String.data_append] at hd
  exact String.ext (by simpa using (List.append_eq_nil.mp (by simpa using hd)).1)

theorem nodesClean_normalize (y : List HNode) (h : nodesClean y = true) :
    nodesClean (normalizeNodes y) = true := by
  induction y using normalizeNodes.induct with
  | case1 => simpa [normalizeNodes] using h
  | case2 s rest hs ih =>
      rw [normalizeNodes, if_pos hs]
      exact ih (by simpa [nodesClean] using h)
  | case3 s rest hs s2 ns hm ih =>
      rw [normalizeNodes, if_neg hs, hm]
      have := ih (by simpa [nodesClean] using h)
      rw [hm] at this
      simpa [nodesClean] using this
  | case4 s rest hs hm ih =>
      rw [normalizeNodes, if_neg hs]
      have hr := ih (by simpa [nodesClean] using h)
      rcases hnr : normalizeNodes rest with _ | ⟨h0, tail⟩
      · simp [nodesClean]
      · rw [hnr] at hr
        cases h0 with
        | text s2 => exact (hm s2 tail hnr).elim
        | elem t a c =>
            dsimp only
            simpa [nodesClean] using hr
  | case5 t a c rest ih1 ih2 =>
      simp only [nodesClean, Bool.and_eq_true] at h
      by_cases hv : t ∈ voidTags
      · simp [normalizeNodes, nodesClean, hv, ih2 h.2, h.1.1]
      · simp [normalizeNodes, nodesClean, hv, ih1 h.1.2, ih2 h.2, h.1.1]

theorem isNormal_normalize (y : List HNode) :
    isNormal (normalizeNodes y) = true := by
  induction y using normalizeNodes.induct with
  | case1 => simp [normalizeNodes, isNormal]
  | case2 s rest hs ih => rw [normalizeNodes, if_pos hs]; exact ih
  | case3 s rest hs s2 ns hm ih =>
      rw [normalizeNodes, if_neg hs, hm]
      rw [hm] at ih
      simp only [isNormal, Bool.and_eq_true] at ih ⊢
      refine ⟨⟨?_, ih.1.2⟩, ih.2⟩
      have h1 : ¬ s = "" := by simpa using hs
      simpa using append_ne_empty_left s s2 h1
  | case4 s rest hs hm ih =>
      rw [normalizeNodes, if_neg hs]
      have hsf : (s == "") = false := by simpa using hs
      rcases hnr : normalizeNodes rest with _ | ⟨h0, tail⟩
      · simp [isNormal, headNotText, hsf]
      · rw [hnr] at ih
        cases h0 with
        | text s2 => exact (hm s2 tail hnr).elim
        | elem t a c =>
            dsimp only
            simp only [isNormal, headNotText, Bool.and_eq_true] at ih ⊢
            exact ⟨⟨by simp [hsf], trivial⟩, ih⟩
  | case5 t a c rest ih1 ih2 =>
      by_cases hv : t ∈ voidTags
      · simp [normalizeNodes, isNormal, hv, ih2]
      · simp [normalizeNodes, isNormal, hv, ih1, ih2]

theorem sanitizeNodes_of_clean (ns : List HNode) (h : nodesClean ns = true) :
    sanitizeNodes ns = ns := by
  induction ns using sanitizeNodes.induct with
  | case1 => rw [sanitizeNodes]
  | case2 s rest ih =>
      rw [sanitizeNodes, ih (by simpa [nodesClean] using h)]
  | case3 tag attrs children rest ht ih1 ih2 =>
      simp only [nodesClean, Bool.and_eq_true] at h
      rw [sanitizeNodes, if_pos ht, ih1 h.1.2, ih2 h.2]
      congr 1
      · congr 1
        exact List.filter_eq_self.mpr (fun a ha => (List.all_eq_true.mp h.1.1.2) a ha)
  | case4 tag attrs children rest ht _ _ =>
      simp only [nodesClean, Bool.and_eq_true] at h
      exact absurd (by simpa using h.1.1.1) ht
  | case5 tag attrs children rest ht _ _ _ =>
      simp only [nodesClean, Bool.and_eq_true] at h
      exact absurd (by simpa using h.1.1.1) ht

theorem strMk_toList (s : String) : String.mk s.toList = s := by
  cases s
  rfl

theorem takeWhile_append_stop (p : Char → Bool) (l : List Char) (b : Char) (r : List Char)
    (hl : ∀ c ∈ l, p c = true) (hb : p b = false) :
    (l ++ b :: r).takeWhile p = l := by
  induction l with
  | nil => simp [List.takeWhile_cons, hb]
  | cons a l ih =>
      have h1 : p a = true := hl a (by simp)
      simp [List.takeWhile_cons, h1, ih (fun c hc => hl c (by simp [hc]))]

theorem drop_append_left (l r : List Char) : (l ++ r).drop l.length = r := by
  simp

theorem matchEntity_amp (tail : List Char) :
    matchEntity ('a' :: 'm' :: 'p' :: ';' :: tail) = some ('&', tail) := by
  simp [matchEntity, entityTable, List.find?, List.isPrefixOf]

theorem matchEntity_lt (tail : List Char) :
    matchEntity ('l' :: 't' :: ';' :: tail) = some ('<', tail) := by
  simp [matchEntity, entityTable, List.find?, List.isPrefixOf]

theorem matchEntity_gt (tail : List Char) :
    matchEntity ('g' :: 't' :: ';' :: tail) = some ('>', tail) := by
  simp [matchEntity, entityTable, List.find?, List.isPrefixOf]

theorem matchEntity_quot (tail : List Char) :
    matchEntity ('q' :: 'u' :: 'o' :: 't' :: ';' :: tail) = some ('\x22', tail) := by
  simp [matchEntity, entityTable, List.find?, List.isPrefixOf]

theorem nextTok_plain (c : Char) (rest : List Char) (h1 : ¬ c = '<') (h2 : ¬ c = '&') :
    nextTok (c :: rest) = none := by
  rw [nextTok, if_neg h1, if_neg h2]

theorem nextTok_amp (tail : List Char) :
    nextTok ('&' :: 'a' :: 'm' :: 'p' :: ';' :: tail) = some (HTok.text '&', tail) := by
  rw [nextTok, if_neg (by decide), if_pos rfl, matchEntity_amp]
  rfl

theorem nextTok_lt (tail : List Char) :
    nextTok ('&' :: 'l' :: 't' :: ';' :: tail) = some (HTok.text '<', tail) := by
  rw [nextTok, if_neg (by decide), if_pos rfl, matchEntity_lt]
  rfl

theorem nextTok_gt (tail : List Char) :
    nextTok ('&' :: 'g' :: 't' :: ';' :: tail) = some (HTok.text '>', tail) := by
  rw [nextTok, if_neg (by decide), if_pos rfl, matchEntity_gt]
  rfl

theorem escapeAttrChar_no_quote (c : Char) : ∀ x ∈ escapeAttrChar c, ¬ x = '\x22' := by
  intro x hx hq
  subst hq
  unfold escapeAttrChar at hx
  split at hx
  · simp at hx
  · split at hx
    · simp at hx
    · rename_i h1 h2
      simp at hx
      exact h2 hx.symm

theorem len_dropWhile_le (p : Char → Bool) (l : List Char) :
    (l.dropWhile p).length ≤ l.length :=
  (List.dropWhile_sublist p).length_le

theorem len_takeWhile_le (p : Char → Bool) (l : List Char) :
    (l.takeWhile p).length ≤ l.length :=
  (List.takeWhile_sublist p).length_le

theorem len_drop_le (n : Nat) (l : List Char) : (l.drop n).length ≤ l.length := by
  simp [List.length_drop]

theorem matchEntity_tail_le (cs : List Char) (c : Char) (tail : List Char)
    (h : matchEntity cs = some (c, tail)) : tail.length ≤ cs.length := by
  unfold matchEntity at h
  cases hf : entityTable.find? (fun e => e.1.isPrefixOf cs) with
  | none => rw [hf] at h; simp at h
  | some e =>
      rw [hf] at h
      simp only [Option.map_some', Option.some_inj, Prod.mk.injEq] at h
      rw [← h.2]
      simp [List.length_drop]


theorem parseAttrsH_tail_le : ∀ (fuel : Nat) (cs : List Char) (a : List (String × String))
    (sc : Bool) (tail : List Char),
    parseAttrsH fuel cs = some (a, sc, tail) → tail.length ≤ cs.length := by
  intro fuel
  induction fuel with
  | zero => intro cs a sc tail h; simp [parseAttrsH] at h
  | succ f ih =>
      intro cs a sc tail h
      rw [parseAttrsH] at h
      have hd1 : (cs.dropWhile jsWs).length ≤ cs.length := len_dropWhile_le jsWs cs
      cases hd : cs.dropWhile jsWs with
      | nil => rw [hd] at h; simp at h
      | cons c1 rest1 =>
          rw [hd] at h hd1
          simp only [List.length_cons] at hd1
          split at h
          · simp at h
          · rename_i x c2 t2 heq
            injection heq with he1 he2
            subst he1
            subst he2
            split at h
            · -- closing bracket
              simp only [Option.some_inj, Prod.mk.injEq] at h
              rw [← h.2.2]
              omega
            · split at h
              · -- self-closing bracket
                simp only [Option.some_inj, Prod.mk.injEq] at h
                rw [← h.2.2]
                have := List.length_tail rest1
                omega
              · dsimp only at h
                split at h
                · simp at h
                · split at h
                  · rename_i afterName restv heq
                    have hrestv : restv.length + 1 ≤ rest1.length + 1 := by
                      have h1 := congrArg List.length heq
                      simp only [List.length_cons] at h1
                      have h2 := len_dropWhile_le jsWs
                        (List.drop (List.takeWhile isNameChar (c1 :: rest1)).length (c1 :: rest1))
                      have h3 := len_drop_le
                        (List.takeWhile isNameChar (c1 :: rest1)).length (c1 :: rest1)
                      simp only [List.length_cons] at h3
                      omega
                    split at h
                    · rename_i vrest heq2
                      have hvrest : vrest.length + 1 ≤ restv.length := by
                        have h1 := congrArg List.length heq2
                        simp only [List.length_cons] at h1
                        have h2 := len_dropWhile_le jsWs restv
                        omega
                      split at h
                      · rename_i tail2 heq3
                        have htail2 : tail2.length + 1 ≤ vrest.length := by
                          have h1 := congrArg List.length heq3
                          simp only [List.length_cons] at h1
                          have h2 := len_drop_le
                            ((vrest.takeWhile (fun c => c ≠ '\x22')).length) vrest
                          omega
                        rcases Option.map_eq_some'.mp h with ⟨⟨a2, sc2, tl2⟩, hr, hF⟩
                        have htl : tail = tl2 := by
                          have := congrArg (fun p => p.2.2) hF
                          simpa using this.symm
                        have := ih tail2 a2 sc2 tl2 hr
                        subst htl
                        omega
                      · simp at h
                    · rename_i vrest heq2
                      have hvrest : vrest.length + 1 ≤ restv.length := by
                        have h1 := congrArg List.length heq2
                        simp only [List.length_cons] at h1
                        have h2 := len_dropWhile_le jsWs restv
                        omega
                      split at h
                      · rename_i tail2 heq3
                        have htail2 : tail2.length + 1 ≤ vrest.length := by
                          have h1 := congrArg List.length heq3
                          simp only [List.length_cons] at h1
                          have h2 := len_drop_le
                            ((vrest.takeWhile (fun c => c ≠ '\x27')).length) vrest
                          omega
                        rcases Option.map_eq_some'.mp h with ⟨⟨a2, sc2, tl2⟩, hr, hF⟩
                        have htl : tail = tl2 := by
                          have := congrArg (fun p => p.2.2) hF
                          simpa using this.symm
                        have := ih tail2 a2 sc2 tl2 hr
                        subst htl
                        omega
                      · simp at h
                    · rcases Option.map_eq_some'.mp h with ⟨⟨a2, sc2, tl2⟩, hr, hF⟩
                      have htl : tail = tl2 := by
                        have := congrArg (fun p => p.2.2) hF
                        simpa using this.symm
                      have hle := ih _ a2 sc2 tl2 hr
                      have h1 := len_drop_le
                        ((List.takeWhile (fun c => !jsWs c && decide (c ≠ '>'))
                          (List.dropWhile jsWs restv)).length) (List.dropWhile jsWs restv)
                      have h2 := len_dropWhile_le jsWs restv
                      subst htl
                      omega
                  · rcases Option.map_eq_some'.mp h with ⟨⟨a2, sc2, tl2⟩, hr, hF⟩
                    have htl : tail = tl2 := by
                      have := congrArg (fun p => p.2.2) hF
                      simpa using this.symm
                    have hle := ih _ a2 sc2 tl2 hr
                    have h1 := len_dropWhile_le jsWs
                      (List.drop (List.takeWhile isNameChar (c1 :: rest1)).length (c1 :: rest1))
                    have h2 := len_drop_le
                      (List.takeWhile isNameChar (c1 :: rest1)).length (c1 :: rest1)
                    simp only [List.length_cons] at h2
                    subst htl
                    omega

/-! ## Round trip: the reader recovers a serialized clean forest

These lemmas relate the serializer back through the tokenizer and the
tree builder; they culminate in the string-level idempotence of
sanitizeHtml. -/

theorem dropWhile_cons_false (p : Char → Bool) (c : Char) (l : List Char)
    (h : p c = false) : (c :: l).dropWhile p = c :: l := by
  simp [List.dropWhile_cons, h]

theorem takeWhile_append_stop2 (p : Char → Bool) (l r : List Char)
    (hl : ∀ c ∈ l, p c = true)
    (hr : ∀ c, r.head? = some c → p c = false) :
    (l ++ r).takeWhile p = l := by
  induction l with
  | nil =>
      cases r with
      | nil => rfl
      | cons b rb => simp [List.takeWhile_cons, hr b rfl]
  | cons a l ih =>
      have h1 : p a = true := hl a (by simp)
      simp [List.takeWhile_cons, h1, ih (fun c hc => hl c (by simp [hc]))]

theorem takeWhile_cons_append (p : Char → Bool) (nc : Char) (ntl : List Char) (b : Char)
    (r : List Char) (hl : ∀ c ∈ nc :: ntl, p c = true) (hb : p b = false) :
    (nc :: (ntl ++ b :: r)).takeWhile p = nc :: ntl :=
  takeWhile_append_stop p (nc :: ntl) b r hl hb

theorem takeWhile_cons_append2 (p : Char → Bool) (nc : Char) (ntl r : List Char)
    (hl : ∀ c ∈ nc :: ntl, p c = true)
    (hr : ∀ c, r.head? = some c → p c = false) :
    (nc :: (ntl ++ r)).takeWhile p = nc :: ntl :=
  takeWhile_append_stop2 p (nc :: ntl) r hl hr

theorem drop_cons_append (nc : Char) (ntl r : List Char) :
    (nc :: (ntl ++ r)).drop (nc :: ntl).length = r :=
  drop_append_left (nc :: ntl) r

/-- Character-level facts about the allow-listed attribute names:
nonempty, made of name characters that are neither whitespace nor tag
delimiters, and already lowercase. -/
theorem allowedAttrs_facts : ∀ n ∈ allowedAttrs, n.toList ≠ [] ∧ lowerStr n = n ∧
    ∀ c ∈ n.toList, isNameChar c = true ∧ jsWs c = false ∧ c ≠ '>' ∧ c ≠ '/' := by
  decide

/-- The same character-level facts for the allow-listed tag names. -/
theorem allowedTags_facts : ∀ n ∈ allowedTags, n.toList ≠ [] ∧ lowerStr n = n ∧
    ∀ c ∈ n.toList, isNameChar c = true ∧ jsWs c = false ∧ c ≠ '>' ∧ c ≠ '/' := by
  decide

theorem escapeTextChar_other (c : Char) (h1 : ¬ c = '&') (h2 : ¬ c = '<')
    (h3 : ¬ c = '>') : escapeTextChar c = [c] := by
  rw [escapeTextChar, if_neg h1, if_neg h2, if_neg h3]

theorem escapeAttrChar_other (c : Char) (h1 : ¬ c = '&') (h2 : ¬ c = '\x22') :
    escapeAttrChar c = [c] := by
  rw [escapeAttrChar, if_neg h1, if_neg h2]

/-- Decoding inverts the entity escaping the serializer applies inside
attribute values. -/
theorem decode_escapeAttr : ∀ (v : List Char) (fuel : Nat),
    ((v.map escapeAttrChar).flatten).length < fuel →
    decodeEntities fuel ((v.map escapeAttrChar).flatten) = v := by
  intro v
  induction v with
  | nil =>
      intro fuel hf
      cases fuel with
      | zero => exact absurd hf (Nat.not_lt_zero _)
      | succ g => rw [List.map_nil, List.flatten_nil, decodeEntities]
  | cons c v ih =>
      intro fuel hf
      rw [List.map_cons, List.flatten_cons] at hf ⊢
      by_cases h1 : c = '&'
      · subst h1
        rw [show escapeAttrChar '&' = ['&', 'a', 'm', 'p', ';'] from by decide] at hf ⊢
        simp only [List.cons_append, List.nil_append, List.length_cons] at hf ⊢
        cases fuel with
        | zero => exact absurd hf (Nat.not_lt_zero _)
        | succ g =>
            rw [decodeEntities, if_pos rfl, matchEntity_amp]
            simp only [ih g (by omega)]
      · by_cases h2 : c = '\x22'
        · subst h2
          rw [show escapeAttrChar '\x22' = ['&', 'q', 'u', 'o', 't', ';'] from by decide] at hf ⊢
          simp only [List.cons_append, List.nil_append, List.length_cons] at hf ⊢
          cases fuel with
          | zero => exact absurd hf (Nat.not_lt_zero _)
          | succ g =>
              rw [decodeEntities, if_pos rfl, matchEntity_quot]
              simp only [ih g (by omega)]
        · rw [escapeAttrChar_other c h1 h2] at hf ⊢
          simp only [List.cons_append, List.nil_append, List.length_cons] at hf ⊢
          cases fuel with
          | zero => exact absurd hf (Nat.not_lt_zero _)
          | succ g =>
              rw [decodeEntities, if_neg h1]
              simp only [ih g (by omega)]

theorem serializeAttrs_cons (n v : String) (as : List (String × String)) :
    serializeAttrs ((n, v) :: as) =
      ' ' :: (n.toList ++ ('=' :: ('\x22' :: ((v.toList.map escapeAttrChar).flatten ++
        ('\x22' :: serializeAttrs as))))) := by
  simp [serializeAttrs, List.append_assoc]

theorem serializeAttrs_head (a : List (String × String)) (R : List Char) :
    ∀ c, (serializeAttrs a ++ '>' :: R).head? = some c → isNameChar c = false := by
  cases a with
  | nil =>
      intro c hc
      rw [show serializeAttrs [] = ([] : List Char) from rfl, List.nil_append] at hc
      rw [List.head?_cons] at hc
      injection hc with hc2
      rw [← hc2]
      decide
  | cons p as =>
      intro c hc
      obtain ⟨n, v⟩ := p
      rw [serializeAttrs_cons, List.cons_append, List.head?_cons] at hc
      injection hc with hc2
      rw [← hc2]
      decide

/-- The attribute parser reads back exactly the attribute list the
serializer wrote, consuming the closing bracket of the tag. -/
theorem parseAttrsH_serialize : ∀ (a : List (String × String)) (R : List Char) (fuel : Nat),
    (∀ p ∈ a, p.1 ∈ allowedAttrs) →
    (serializeAttrs a ++ '>' :: R).length < fuel →
    parseAttrsH fuel (serializeAttrs a ++ '>' :: R) = some (a, false, R) := by
  intro a
  induction a with
  | nil =>
      intro R fuel hmem hf
      cases fuel with
      | zero => exact absurd hf (Nat.not_lt_zero _)
      | succ g =>
          rw [show serializeAttrs [] = ([] : List Char) from rfl, List.nil_append]
          rw [parseAttrsH]
          rw [dropWhile_cons_false jsWs '>' R (by decide)]
          conv_lhs => whnf
  | cons p as ih =>
      intro R fuel hmem hf
      obtain ⟨n, v⟩ := p
      obtain ⟨hne, hlow, hchars⟩ := allowedAttrs_facts n (hmem (n, v) (by simp))
      rw [serializeAttrs_cons] at hf ⊢
      simp only [List.cons_append, List.append_assoc] at hf ⊢
      cases fuel with
      | zero => exact absurd hf (Nat.not_lt_zero _)
      | succ g =>
          rw [parseAttrsH]
          rw [List.dropWhile_cons, if_pos (show jsWs ' ' = true from by decide)]
          cases hnl : n.toList with
          | nil => exact absurd hnl hne
          | cons nc ntl =>
              have hchars2 : ∀ ch ∈ nc :: ntl,
                  isNameChar ch = true ∧ jsWs ch = false ∧ ch ≠ '>' ∧ ch ≠ '/' := by
                rw [← hnl]
                exact hchars
              rw [List.cons_append]
              rw [dropWhile_cons_false jsWs nc _ (hchars2 nc (by simp)).2.1]
              dsimp only
              rw [if_neg (hchars2 nc (by simp)).2.2.1]
              rw [if_neg (fun hand => (hchars2 nc (by simp)).2.2.2 hand.1)]
              rw [takeWhile_cons_append isNameChar nc ntl '=' _
                (fun c hc => (hchars2 c hc).1) (by decide)]
              rw [if_neg (show ¬ (nc :: ntl).isEmpty = true from by simp)]
              rw [drop_cons_append nc ntl]
              rw [dropWhile_cons_false jsWs '=' _ (by decide)]
              conv_lhs => whnf
              rw [takeWhile_append_stop (fun c => decide (c ≠ '\x22'))
                ((v.toList.map escapeAttrChar).flatten) '\x22'
                (serializeAttrs as ++ '>' :: R)
                (by
                  intro c hc
                  rcases List.mem_flatten.mp hc with ⟨l2, hl2, hcl⟩
                  rcases List.mem_map.mp hl2 with ⟨c0, hc0m, hc0⟩
                  subst hc0
                  simpa using escapeAttrChar_no_quote c0 c hcl)
                (by decide)]
              rw [drop_append_left ((v.toList.map escapeAttrChar).flatten)
                ('\x22' :: (serializeAttrs as ++ '>' :: R))]
              conv_lhs => whnf
              rw [ih R g (fun q hq => hmem q (by simp [hq]))
                (by
                  simp only [List.length_cons, List.length_append] at hf ⊢
                  omega)]
              rw [← hnl, strMk_toList, hlow]
              rw [decode_escapeAttr v.toList _ (by omega)]
              rw [strMk_toList]

/-- Reading at a serialized open tag of a clean element yields exactly
the open-tag token. -/
theorem nextTok_open (t : String) (a : List (String × String)) (R : List Char)
    (ht : t ∈ allowedTags) (ha : ∀ p ∈ a, p.1 ∈ allowedAttrs) :
    nextTok ('<' :: (t.toList ++ (serializeAttrs a ++ '>' :: R))) =
      some (HTok.tagOpen t a false, R) := by
  obtain ⟨hne, hlow, hchars⟩ := allowedTags_facts t ht
  cases hnl : t.toList with
  | nil => exact absurd hnl hne
  | cons tc ttl =>
      have hchars2 : ∀ ch ∈ tc :: ttl,
          isNameChar ch = true ∧ jsWs ch = false ∧ ch ≠ '>' ∧ ch ≠ '/' := by
        rw [← hnl]
        exact hchars
      rw [List.cons_append]
      rw [nextTok]
      rw [if_pos rfl]
      rw [if_neg (show ¬ (tc :: (ttl ++ (serializeAttrs a ++ '>' :: R))).head? = some '/' from by
        rw [List.head?_cons]
        intro hcon
        injection hcon with hcon2
        exact (hchars2 tc (by simp)).2.2.2 hcon2)]
      dsimp only
      rw [takeWhile_cons_append2 isNameChar tc ttl _ (fun c hc => (hchars2 c hc).1)
        (serializeAttrs_head a R)]
      rw [if_neg (show ¬ (tc :: ttl).isEmpty = true from by simp)]
      rw [drop_cons_append tc ttl _]
      rw [parseAttrsH_serialize a R ((tc :: (ttl ++ (serializeAttrs a ++ '>' :: R))).length + 1)
        ha (by
          simp only [List.length_cons, List.length_append]
          omega)]
      conv_lhs => whnf
      rw [← hnl, strMk_toList, hlow]

/-- Reading at a serialized close tag yields exactly the close-tag
token. -/
theorem nextTok_close (t : String) (R : List Char) (ht : t ∈ allowedTags) :
    nextTok ('<' :: '/' :: (t.toList ++ '>' :: R)) = some (HTok.tagClose t, R) := by
  obtain ⟨hne, hlow, hchars⟩ := allowedTags_facts t ht
  cases hnl : t.toList with
  | nil => exact absurd hnl hne
  | cons tc ttl =>
      have hchars2 : ∀ ch ∈ tc :: ttl,
          isNameChar ch = true ∧ jsWs ch = false ∧ ch ≠ '>' ∧ ch ≠ '/' := by
        rw [← hnl]
        exact hchars
      rw [List.cons_append]
      rw [nextTok]
      rw [if_pos rfl]
      rw [if_pos (show ('/' :: (tc :: (ttl ++ '>' :: R))).head? = some '/' from rfl)]
      dsimp only
      rw [List.tail_cons]
      rw [takeWhile_cons_append isNameChar tc ttl '>' R (fun c hc => (hchars2 c hc).1) (by decide)]
      rw [if_neg (show ¬ (tc :: ttl).isEmpty = true from by simp)]
      rw [drop_cons_append tc ttl ('>' :: R)]
      rw [dropWhile_cons_false jsWs '>' R (by decide)]
      conv_lhs => whnf
      rw [← hnl, strMk_toList, hlow]

/-- Any token the reader produces strictly shortens the input. -/
theorem nextTok_suffix : ∀ (cs : List Char) (t : HTok) (tail : List Char),
    nextTok cs = some (t, tail) → tail.length < cs.length := by
  intro cs t tail h
  cases cs with
  | nil =>
      rw [nextTok] at h
      exact absurd h (by simp)
  | cons c rest =>
      rw [nextTok] at h
      split at h
      · split at h
        · dsimp only at h
          split at h
          · exact absurd h (by simp)
          · split at h
            · rename_i tail2 heq
              simp only [Option.some_inj, Prod.mk.injEq] at h
              have h3 := congrArg List.length heq
              have h4 := len_dropWhile_le jsWs
                (rest.tail.drop (rest.tail.takeWhile isNameChar).length)
              have h5 := len_drop_le (rest.tail.takeWhile isNameChar).length rest.tail
              have h6 : rest.tail.length ≤ rest.length := by
                cases rest with
                | nil => simp
                | cons a b => simp
              simp only [List.length_cons] at h3 ⊢
              rw [← h.2]
              omega
            · exact absurd h (by simp)
        · dsimp only at h
          split at h
          · exact absurd h (by simp)
          · split at h
            · rename_i attrs sc tail3 heq
              have h3 := parseAttrsH_tail_le _ _ _ _ _ heq
              have h5 := len_drop_le (rest.takeWhile isNameChar).length rest
              simp only [Option.some_inj, Prod.mk.injEq] at h
              simp only [List.length_cons]
              rw [← h.2]
              omega
            · exact absurd h (by simp)
      · split at h
        · rcases Option.map_eq_some'.mp h with ⟨r, hm, hF⟩
          obtain ⟨ch, tl⟩ := r
          have h3 := matchEntity_tail_le rest ch tl hm
          have h4 : tail = tl := by
            have h5 := congrArg (fun p => p.2) hF
            simpa using h5.symm
          rw [h4]
          simp only [List.length_cons]
          omega
        · exact absurd h (by simp)

/-- The tokenizer is fuel-irrelevant once the fuel exceeds the input
length. -/
theorem tokenizeHtml_fuel : ∀ (n : Nat) (cs : List Char), cs.length ≤ n →
    ∀ f1 f2, cs.length < f1 → cs.length < f2 →
    tokenizeHtml f1 cs = tokenizeHtml f2 cs := by
  intro n
  induction n with
  | zero =>
      intro cs hn f1 f2 h1 h2
      have hc : cs = [] := List.length_eq_zero.mp (Nat.le_zero.mp hn)
      subst hc
      cases f1 with
      | zero => exact absurd h1 (by omega)
      | succ g1 =>
          cases f2 with
          | zero => exact absurd h2 (by omega)
          | succ g2 => rw [tokenizeHtml, tokenizeHtml]
  | succ m ih =>
      intro cs hn f1 f2 h1 h2
      cases cs with
      | nil =>
          cases f1 with
          | zero => exact absurd h1 (by omega)
          | succ g1 =>
              cases f2 with
              | zero => exact absurd h2 (by omega)
              | succ g2 => rw [tokenizeHtml, tokenizeHtml]
      | cons c rest =>
          cases f1 with
          | zero => exact absurd h1 (by omega)
          | succ g1 =>
              cases f2 with
              | zero => exact absurd h2 (by omega)
              | succ g2 =>
                  rw [tokenizeHtml, tokenizeHtml]
                  simp only [List.length_cons] at h1 h2 hn
                  cases hnt : nextTok (c :: rest) with
                  | none =>
                      dsimp only
                      rw [ih rest (by omega) g1 g2 (by omega) (by omega)]
                  | some pr =>
                      obtain ⟨tk, tail⟩ := pr
                      dsimp only
                      have hlt := nextTok_suffix (c :: rest) tk tail hnt
                      simp only [List.length_cons] at hlt
                      rw [ih tail (by omega) g1 g2 (by omega) (by omega)]

/-- Tokenizing serialized character data yields exactly its text
tokens, whatever follows it. -/
theorem tokenize_text : ∀ (l tail : List Char) (f : Nat),
    ((l.map escapeTextChar).flatten ++ tail).length < f →
    tokenizeHtml f ((l.map escapeTextChar).flatten ++ tail) =
      l.map HTok.text ++ tokenizeHtml (tail.length + 1) tail := by
  intro l
  induction l with
  | nil =>
      intro tail f hf
      simp only [List.map_nil, List.flatten_nil, List.nil_append] at hf ⊢
      exact tokenizeHtml_fuel tail.length tail le_rfl f (tail.length + 1) hf (by omega)
  | cons c l ih =>
      intro tail f hf
      rw [List.map_cons, List.flatten_cons, List.append_assoc] at hf ⊢
      by_cases h1 : c = '&'
      · subst h1
        rw [show escapeTextChar '&' = ['&', 'a', 'm', 'p', ';'] from by decide] at hf ⊢
        simp only [List.cons_append, List.nil_append, List.length_cons] at hf ⊢
        cases f with
        | zero => exact absurd hf (Nat.not_lt_zero _)
        | succ g =>
            rw [tokenizeHtml, nextTok_amp]
            dsimp only
            rw [ih tail g (by omega)]
            rfl
      · by_cases h2 : c = '<'
        · subst h2
          rw [show escapeTextChar '<' = ['&', 'l', 't', ';'] from by decide] at hf ⊢
          simp only [List.cons_append, List.nil_append, List.length_cons] at hf ⊢
          cases f with
          | zero => exact absurd hf (Nat.not_lt_zero _)
          | succ g =>
              rw [tokenizeHtml, nextTok_lt]
              dsimp only
              rw [ih tail g (by omega)]
              rfl
        · by_cases h3 : c = '>'
          · subst h3
            rw [show escapeTextChar '>' = ['&', 'g', 't', ';'] from by decide] at hf ⊢
            simp only [List.cons_append, List.nil_append, List.length_cons] at hf ⊢
            cases f with
            | zero => exact absurd hf (Nat.not_lt_zero _)
            | succ g =>
                rw [tokenizeHtml, nextTok_gt]
                dsimp only
                rw [ih tail g (by omega)]
                rfl
          · rw [escapeTextChar_other c h1 h2 h3] at hf ⊢
            simp only [List.cons_append, List.nil_append, List.length_cons] at hf ⊢
            cases f with
            | zero => exact absurd hf (Nat.not_lt_zero _)
            | succ g =>
                rw [tokenizeHtml, nextTok_plain c _ h2 h1]
                dsimp only
                rw [ih tail g (by omega)]
                rfl

/-- Tokenizing the serialization of a clean forest yields exactly its
token stream, whatever follows it. -/
theorem tokenize_serialize : ∀ (z : List HNode), nodesClean z = true →
    ∀ (rest : List Char) (f : Nat),
    (serializeNodes z ++ rest).length < f →
    tokenizeHtml f (serializeNodes z ++ rest) =
      forestToks z ++ tokenizeHtml (rest.length + 1) rest := by
  intro z
  induction z using forestToks.induct with
  | case1 =>
      intro hclean rest f hf
      rw [show serializeNodes [] = ([] : List Char) from by rw [serializeNodes]] at hf ⊢
      rw [List.nil_append] at hf ⊢
      rw [show forestToks [] = ([] : List HTok) from by rw [forestToks]]
      rw [List.nil_append]
      exact tokenizeHtml_fuel rest.length rest le_rfl f (rest.length + 1) hf (by omega)
  | case2 s rest2 ih =>
      intro hclean rest f hf
      have hcl2 : nodesClean rest2 = true := by simpa [nodesClean] using hclean
      rw [serializeNodes] at hf ⊢
      rw [List.append_assoc] at hf ⊢
      rw [tokenize_text s.toList (serializeNodes rest2 ++ rest) f hf]
      rw [ih hcl2 rest ((serializeNodes rest2 ++ rest).length + 1) (by omega)]
      rw [forestToks]
      rw [List.append_assoc]
  | case3 t a c rest2 hv ih =>
      intro hclean rest f hf
      simp only [nodesClean, Bool.and_eq_true] at hclean
      have ht : t ∈ allowedTags := by simpa using hclean.1.1.1
      have ha : ∀ p ∈ a, p.1 ∈ allowedAttrs := by
        intro p hp
        have h2 := List.all_eq_true.mp hclean.1.1.2 p hp
        simp only [attrOk, Bool.and_eq_true] at h2
        simpa using h2.1
      rw [serializeNodes, if_pos hv] at hf ⊢
      simp only [List.cons_append, List.append_assoc, List.singleton_append,
        List.nil_append] at hf ⊢
      cases f with
      | zero => exact absurd hf (Nat.not_lt_zero _)
      | succ g =>
          rw [tokenizeHtml]
          rw [nextTok_open t a _ ht ha]
          dsimp only
          rw [ih hclean.2 rest g (by
            simp only [List.length_cons, List.length_append] at hf ⊢
            omega)]
          rw [forestToks, if_pos hv]
          rw [List.cons_append]
  | case4 t a c rest2 hv ihc ihr =>
      intro hclean rest f hf
      simp only [nodesClean, Bool.and_eq_true] at hclean
      have ht : t ∈ allowedTags := by simpa using hclean.1.1.1
      have ha : ∀ p ∈ a, p.1 ∈ allowedAttrs := by
        intro p hp
        have h2 := List.all_eq_true.mp hclean.1.1.2 p hp
        simp only [attrOk, Bool.and_eq_true] at h2
        simpa using h2.1
      rw [serializeNodes, if_neg hv] at hf ⊢
      simp only [List.cons_append, List.append_assoc, List.singleton_append,
        List.nil_append] at hf ⊢
      cases f with
      | zero => exact absurd hf (Nat.not_lt_zero _)
      | succ g =>
          rw [tokenizeHtml]
          rw [nextTok_open t a _ ht ha]
          dsimp only
          rw [ihc hclean.1.2
            ('<' :: ('/' :: (t.toList ++ ('>' :: (serializeNodes rest2 ++ rest))))) g (by
              simp only [List.length_cons, List.length_append] at hf ⊢
              omega)]
          rw [tokenizeHtml]
          rw [nextTok_close t (serializeNodes rest2 ++ rest) ht]
          dsimp only
          rw [ihr hclean.2 rest
            (('<' :: ('/' :: (t.toList ++ ('>' :: (serializeNodes rest2 ++ rest))))).length) (by
              simp only [List.length_cons, List.length_append]
              omega)]
          rw [forestToks, if_neg hv]
          simp only [List.cons_append, List.append_assoc]

/-- The unconsumed suffix the builder returns is never longer than its
input. -/
theorem buildForest_tail_le : ∀ (f : Nat) (toks : List HTok),
    (buildForest f toks).2.length ≤ toks.length := by
  intro f
  induction f with
  | zero =>
      intro toks
      rw [buildForest]
  | succ g ih =>
      intro toks
      cases toks with
      | nil => rw [buildForest]
      | cons tk rest =>
          cases tk with
          | text c =>
              rw [buildForest]
              dsimp only
              have h1 := ih rest
              simp only [List.length_cons]
              omega
          | tagClose nm => rw [buildForest]
          | tagOpen nm attrs sc =>
              rw [buildForest]
              split
              · dsimp only
                have h1 := ih rest
                simp only [List.length_cons]
                omega
              · dsimp only
                split
                · rename_i m rest2 heq
                  split
                  · dsimp only
                    have h1 := ih rest
                    have h2 := ih rest2
                    have h3 := congrArg List.length heq
                    simp only [List.length_cons] at h3 ⊢
                    omega
                  · dsimp only
                    have h1 := ih rest
                    have h3 := congrArg List.length heq
                    simp only [List.length_cons] at h3 ⊢
                    omega
                · dsimp only
                  have h1 := ih rest
                  simp only [List.length_cons]
                  omega

/-- The tree builder is fuel-irrelevant once the fuel exceeds the
token-stream length. -/
theorem buildForest_fuel : ∀ (n : Nat) (toks : List HTok), toks.length ≤ n →
    ∀ f1 f2, toks.length < f1 → toks.length < f2 →
    buildForest f1 toks = buildForest f2 toks := by
  intro n
  induction n with
  | zero =>
      intro toks hn f1 f2 h1 h2
      have hc : toks = [] := List.length_eq_zero.mp (Nat.le_zero.mp hn)
      subst hc
      cases f1 with
      | zero => exact absurd h1 (by omega)
      | succ g1 =>
          cases f2 with
          | zero => exact absurd h2 (by omega)
          | succ g2 => rw [buildForest, buildForest]
  | succ m ih =>
      intro toks hn f1 f2 h1 h2
      cases toks with
      | nil =>
          cases f1 with
          | zero => exact absurd h1 (by omega)
          | succ g1 =>
              cases f2 with
              | zero => exact absurd h2 (by omega)
              | succ g2 => rw [buildForest, buildForest]
      | cons tk rest =>
          cases f1 with
          | zero => exact absurd h1 (by omega)
          | succ g1 =>
              cases f2 with
              | zero => exact absurd h2 (by omega)
              | succ g2 =>
                  simp only [List.length_cons] at h1 h2 hn
                  cases tk with
                  | text c =>
                      rw [buildForest, buildForest]
                      rw [ih rest (by omega) g1 g2 (by omega) (by omega)]
                  | tagClose nm => rw [buildForest, buildForest]
                  | tagOpen nm attrs sc =>
                      rw [buildForest, buildForest]
                      rw [ih rest (by omega) g1 g2 (by omega) (by omega)]
                      by_cases hv : (sc || decide (nm ∈ voidTags)) = true
                      · rw [if_pos hv, if_pos hv]
                      · rw [if_neg hv, if_neg hv]
                        rcases hbf : buildForest g2 rest with ⟨bf1, bf2⟩
                        dsimp only
                        cases bf2 with
                        | nil => rfl
                        | cons htk rtl =>
                            cases htk with
                            | text c2 => rfl
                            | tagOpen n2 a2 s2 => rfl
                            | tagClose m =>
                                have h4 : rtl.length + 1 ≤ rest.length := by
                                  have h5 := buildForest_tail_le g2 rest
                                  rw [hbf] at h5
                                  simpa using h5
                                dsimp only
                                by_cases hm : (m == nm) = true
                                · rw [if_pos hm, if_pos hm]
                                  rw [ih rtl (by omega) g1 g2 (by omega) (by omega)]
                                · rw [if_neg hm, if_neg hm]

/-- Folding character tokens onto a forest that does not begin with
character data builds one merged text node. -/
theorem foldr_consText : ∀ (l : List Char) (ns : List HNode), l ≠ [] →
    headNotText ns = true →
    l.foldr consText ns = .text (String.mk l) :: ns := by
  intro l
  induction l with
  | nil =>
      intro ns hl hns
      exact absurd rfl hl
  | cons c l ih =>
      intro ns hl hns
      cases l with
      | nil =>
          simp only [List.foldr]
          cases ns with
          | nil => rfl
          | cons n0 tl =>
              cases n0 with
              | text s => simp [headNotText] at hns
              | elem t2 a2 c2 => rfl
      | cons c2 l2 =>
          simp only [List.foldr] at ih ⊢
          rw [ih ns (by simp) hns]
          rfl

/-- Building from a run of character tokens folds them onto the forest
built from the remainder. -/
theorem buildForest_text : ∀ (l : List Char) (toks2 : List HTok) (f : Nat),
    (l.map HTok.text ++ toks2).length < f →
    buildForest f (l.map HTok.text ++ toks2) =
      (l.foldr consText (buildForest (toks2.length + 1) toks2).1,
        (buildForest (toks2.length + 1) toks2).2) := by
  intro l
  induction l with
  | nil =>
      intro toks2 f hf
      simp only [List.map_nil, List.nil_append] at hf ⊢
      rw [buildForest_fuel toks2.length toks2 le_rfl f (toks2.length + 1) hf (by omega)]
      rfl
  | cons c l ih =>
      intro toks2 f hf
      simp only [List.map_cons, List.cons_append, List.length_cons] at hf ⊢
      cases f with
      | zero => exact absurd hf (Nat.not_lt_zero _)
      | succ g =>
          rw [buildForest]
          rw [ih toks2 g (by omega)]
          rfl

/-- Token streams at which the builder stops consuming: empty or
beginning with a close tag. -/
def closeHeaded : List HTok → Bool
  | [] => true
  | .tagClose _ :: _ => true
  | _ => false

/-- A normal forest with an empty token stream is empty. -/
theorem forestToks_nil : ∀ (z : List HNode), isNormal z = true →
    forestToks z = [] → z = [] := by
  intro z hz hf
  cases z with
  | nil => rfl
  | cons n0 rest =>
      cases n0 with
      | text s =>
          rw [forestToks] at hf
          simp only [isNormal, Bool.and_eq_true] at hz
          rcases List.append_eq_nil.mp hf with ⟨hmap, h2⟩
          have hnil2 : s.toList = [] := List.map_eq_nil_iff.mp hmap
          have hs0 : s = "" := String.ext (by simpa using hnil2)
          rw [hs0] at hz
          simp at hz
      | elem t a c =>
          rw [forestToks] at hf
          by_cases hv : t ∈ voidTags
          · rw [if_pos hv] at hf
            exact absurd hf (by simp)
          · rw [if_neg hv] at hf
            exact absurd hf (by simp)

/-- The builder rebuilds a normal forest from its token stream, leaving
a close-headed remainder untouched. -/
theorem buildForest_forestToks : ∀ (z : List HNode) (rest : List HTok) (f : Nat),
    isNormal z = true → closeHeaded rest = true →
    (forestToks z ++ rest).length < f →
    buildForest f (forestToks z ++ rest) = (z, rest) := by
  intro z
  induction z using forestToks.induct with
  | case1 =>
      intro rest f hn hc hf
      rw [show forestToks [] = ([] : List HTok) from by rw [forestToks]] at hf ⊢
      rw [List.nil_append] at hf ⊢
      cases f with
      | zero => exact absurd hf (Nat.not_lt_zero _)
      | succ g =>
          cases rest with
          | nil => rw [buildForest]
          | cons tk tl =>
              cases tk with
              | text c => simp [closeHeaded] at hc
              | tagOpen n2 a2 s2 => simp [closeHeaded] at hc
              | tagClose n2 => rw [buildForest]
  | case2 s rest2 ih =>
      intro rest f hn hc hf
      simp only [isNormal, Bool.and_eq_true] at hn
      have hnt2 : headNotText rest2 = true := hn.1.2
      have hsl : s.toList ≠ [] := by
        intro hcn
        have hs0 : s = "" := String.ext (by simpa using hcn)
        rw [hs0] at hn
        simp at hn
      rw [forestToks, List.append_assoc] at hf ⊢
      rw [buildForest_text s.toList (forestToks rest2 ++ rest) f hf]
      rw [ih rest ((forestToks rest2 ++ rest).length + 1) hn.2 hc (by omega)]
      dsimp only
      rw [foldr_consText s.toList rest2 hsl hnt2, strMk_toList]
  | case3 t a c rest2 hv ih =>
      intro rest f hn hc hf
      simp only [isNormal, Bool.and_eq_true] at hn
      have hce : c = [] := by
        have h2 := hn.1
        rw [if_pos hv] at h2
        simpa using h2
      subst hce
      rw [forestToks, if_pos hv, List.cons_append] at hf ⊢
      cases f with
      | zero => exact absurd hf (Nat.not_lt_zero _)
      | succ g =>
          rw [buildForest]
          rw [if_pos (show (false || decide (t ∈ voidTags)) = true from by simp [hv])]
          dsimp only
          simp only [List.length_cons] at hf
          rw [ih rest g hn.2 hc (by omega)]
  | case4 t a c rest2 hv ihc ihr =>
      intro rest f hn hc hf
      simp only [isNormal, Bool.and_eq_true] at hn
      have hnc : isNormal c = true := by
        have h2 := hn.1
        rw [if_neg hv] at h2
        exact h2
      rw [forestToks, if_neg hv] at hf ⊢
      simp only [List.cons_append, List.append_assoc] at hf ⊢
      cases f with
      | zero => exact absurd hf (Nat.not_lt_zero _)
      | succ g =>
          rw [buildForest]
          rw [if_neg (show ¬ (false || decide (t ∈ voidTags)) = true from by simp [hv])]
          dsimp only
          simp only [List.length_cons, List.length_append] at hf
          rw [ihc (HTok.tagClose t :: (forestToks rest2 ++ rest)) g hnc rfl (by
            simp only [List.length_cons, List.length_append]
            omega)]
          dsimp only
          rw [if_pos (show (t == t) = true from by simp)]
          rw [ihr rest g hn.2 hc (by
            simp only [List.length_append]
            omega)]

/-- The top-level parse loop recovers a normal forest from its token
stream. -/
theorem parseHtmlToks_forestToks (z : List HNode) (f : Nat) (hz : isNormal z = true)
    (hf : 0 < f) : parseHtmlToks f (forestToks z) = z := by
  cases f with
  | zero => exact absurd hf (by omega)
  | succ g =>
      cases hft : forestToks z with
      | nil =>
          rw [parseHtmlToks]
          exact (forestToks_nil z hz hft).symm
      | cons tk tl =>
          rw [parseHtmlToks]
          have hb := buildForest_forestToks z [] (2 * (tk :: tl).length + 2) hz rfl (by
            rw [hft]
            simp only [List.append_nil, List.length_cons]
            omega)
          rw [List.append_nil] at hb
          rw [hft] at hb
          rw [hb]
          simp

/-- Parsing the serialization of a clean normal forest recovers the
forest. -/
theorem parse_serialize (z : List HNode) (h1 : nodesClean z = true)
    (h2 : isNormal z = true) :
    parseHtml (String.mk (serializeNodes z)) = z := by
  unfold parseHtml
  rw [show (String.mk (serializeNodes z)).toList = serializeNodes z from rfl]
  have h3 := tokenize_serialize z h1 [] ((serializeNodes z).length + 1) (by simp)
  rw [List.append_nil] at h3
  rw [show tokenizeHtml (List.length ([] : List Char) + 1) ([] : List Char) =
    ([] : List HTok) from rfl] at h3
  rw [List.append_nil] at h3
  rw [h3]
  exact parseHtmlToks_forestToks z _ h2 (by omega)

/-- C6: TemplateEngine.sanitizeHtml is idempotent at string level —
sanitizing an already-sanitized HTML string returns it unchanged, for
every input string. -/
theorem sanitizeHtml_idempotent (x : String) :
    sanitizeHtml (sanitizeHtml x) = sanitizeHtml x := by
  have hc : nodesClean (sanitizeNodes (parseHtml x)) = true :=
    nodesClean_sanitizeNodes (parseHtml x)
  have hcn : nodesClean (normalizeNodes (sanitizeNodes (parseHtml x))) = true :=
    nodesClean_normalize _ hc
  have hkey : sanitizeHtml x =
      String.mk (serializeNodes (normalizeNodes (sanitizeNodes (parseHtml x)))) := by
    unfold sanitizeHtml
    rw [serializeNodes_normalize]
  rw [hkey]
  unfold sanitizeHtml
  rw [parse_serialize _ hcn (isNormal_normalize _)]
  rw [sanitizeNodes_of_clean _ hcn]
